import Mathlib

/-!
Shallow embedding of the core of `little-language-lab`: the template-literal
lexer (`src/unnamed/part_000`, exporting `tokenize`) and the parser pipeline of
`src/src/visibly-pushdown.mjs` (TypeScript half): the primitive AST
(`SimpleAST`), the AST simplifier (`ASTSimplifier.simplify`), the first-set
analyzer (`FirstSetBuilder`), the parser compiler (`ParserCompiler.compile`)
and the stack-machine runtime (`ParseState`, the `Parser` matcher classes and
`createParser`).

Conventions of the embedding:
* JavaScript `Symbol`s (rule identifiers) are `Nat`, drawn from a counter.
* JavaScript `Map`/`Set` are association lists / duplicate-free lists in
  insertion order; `Map.set` replaces in place, `Set.add` appends.
* Exceptions are `Except`; each `throw site` has its own error constructor.
* Host values (token payloads, reducer results) are the inductive `Value`;
  reducer functions are Lean functions `List Value → Value`.
* Unbounded loops and recursion through the rule table are driven by an
  explicit fuel parameter (structural recursion on `Nat`), with a dedicated
  `fuel` error for exhaustion; the JavaScript functions have no such case, so
  theorems are stated at fuel `f+1` in terms of the children at fuel `f`,
  mirroring one unfolding of the source loop.
-/

set_option autoImplicit false

namespace LLL

/-- Host values flowing through the lexer and the parse stack. `undef` is
JavaScript `undefined` (e.g. popping an empty result stack); `numberFromString`
keeps the result of JavaScript `Number()` on a matched numeric literal
symbolic, since no claim inspects numeric payloads and float semantics are
outside the embedding. -/
inductive Value where
  | undefined
  | null
  | num (n : Int)
  | str (s : String)
  | list (vs : List Value)
  | numberFromString (s : String)
  deriving Repr

mutual

/-- JavaScript `String(v)` for the values the claims exercise (used when an
interpolated value is spliced into an open quoted string); arrays stringify
as their comma-joined elements. -/
def valueToString : Value → String
  | .undefined => "undefined"
  | .null => "null"
  | .num n => toString n
  | .str s => s
  | .list vs => valueListToString vs
  | .numberFromString s => s

def valueListToString : List Value → String
  | [] => ""
  | [v] => valueToString v
  | v :: vs => valueToString v ++ "," ++ valueListToString vs

end

mutual

def Value.beq : Value → Value → Bool
  | .undefined, .undefined => true
  | .null, .null => true
  | .num n, .num m => n == m
  | .str s, .str t => s == t
  | .list vs, .list ws => Value.beqList vs ws
  | .numberFromString s, .numberFromString t => s == t
  | _, _ => false

def Value.beqList : List Value → List Value → Bool
  | [], [] => true
  | v :: vs, w :: ws => Value.beq v w && Value.beqList vs ws
  | _, _ => false

end

mutual

def Value.beq_refl : ∀ v : Value, Value.beq v v = true
  | .undefined => rfl
  | .null => rfl
  | .num n => by simp [Value.beq]
  | .str s => by simp [Value.beq]
  | .list vs => by simp [Value.beq, Value.beqList_refl vs]
  | .numberFromString s => by simp [Value.beq]

def Value.beqList_refl : ∀ vs : List Value, Value.beqList vs vs = true
  | [] => rfl
  | v :: vs => by simp [Value.beqList, Value.beq_refl v, Value.beqList_refl vs]

end

mutual

def Value.eq_of_beq : ∀ {v w : Value}, Value.beq v w = true → v = w
  | .undefined, .undefined, _ => rfl
  | .null, .null, _ => rfl
  | .num _, .num _, h => by simpa [Value.beq] using h
  | .str _, .str _, h => by simpa [Value.beq] using h
  | .list vs, .list ws, h => by
      have h1 := Value.eqList_of_beqList (by simpa [Value.beq] using h)
      simp [h1]
  | .numberFromString _, .numberFromString _, h => by simpa [Value.beq] using h

def Value.eqList_of_beqList : ∀ {vs ws : List Value},
    Value.beqList vs ws = true → vs = ws
  | [], [], _ => rfl
  | v :: vs, w :: ws, h => by
      have h' := h
      simp only [Value.beqList, Bool.and_eq_true] at h'
      have h1 := Value.eq_of_beq h'.1
      have h2 := Value.eqList_of_beqList h'.2
      simp [h1, h2]

end

instance : DecidableEq Value := fun v w =>
  if h : Value.beq v w = true then
    .isTrue (Value.eq_of_beq h)
  else
    .isFalse (fun he => h (he ▸ Value.beq_refl v))

/-- Append a string to a (string-valued) `Value`, JavaScript `value += s`. -/
def Value.strApp (v : Value) (s : String) : Value :=
  .str (valueToString v ++ s)

/-! ### Terminals (branded strings, `visibly-pushdown.mjs` lines 341-353) -/

def brandLiteral (v : String) : String := "\"" ++ v ++ "\""

def brandType (t : String) : String := "<" ++ t ++ ">"

def brandEof : String := "(end of input)"

/-! ### Tokens

`Token` from the lexer file: `TokenContent & TokenPosition`. The runtime's
`MatchLiteral` additionally tests for a `keyword` token type (produced by the
`Lexer` class, which is not under `src/`), so the embedded token type carries
all four type tags; the lexer in `src/unnamed/part_000` constructs only
`value`, `identifier` and `operator` tokens. -/

inductive TokenType where
  | value
  | operator
  | identifier
  | keyword
  deriving DecidableEq, Repr

structure Token where
  type : TokenType
  value : Value
  index : Nat
  outerIndex : Nat
  length : Nat
  deriving DecidableEq, Repr

/-- `brandToken` (lines 346-353): `null` ↦ end-of-input, identifier/value
tokens ↦ their type marker, anything else ↦ its value as a quoted literal. -/
def brandToken : Option Token → String
  | none => brandEof
  | some t =>
    match t.type with
    | .identifier => brandType "identifier"
    | .value => brandType "value"
    | _ => brandLiteral (valueToString t.value)

/-! ### Lexer state (`src/unnamed/part_000`, class `LexerState`) -/

structure LexerState where
  strings : List (List Char)
  interps : List Value
  index : Nat
  outerIndex : Nat
  tokens : List Token
  deriving DecidableEq, Repr

/-- `push(token)`: appends; `push(undefined)` is a no-op. -/
def LexerState.push (st : LexerState) (t : Token) : LexerState :=
  { st with tokens := st.tokens ++ [t] }

def LexerState.pushOpt (st : LexerState) : Option Token → LexerState
  | none => st
  | some t => st.push t

/-- `getInterpolation()` (lines 57-71): if an interpolated value is available
at the current slot, build a `value` token for it with `index = 0`,
`length = 0` and `outerIndex` one past the fragment just scanned; in all cases
advance to the next fragment (`outerIndex++`, `index = 0`). -/
def LexerState.getInterpolation (st : LexerState) : Option Token × LexerState :=
  let token : Option Token :=
    if st.outerIndex < st.interps.length then
      some { type := .value
             value := st.interps.getD st.outerIndex .undefined
             index := 0
             outerIndex := st.outerIndex + 1
             length := 0 }
    else none
  (token, { st with outerIndex := st.outerIndex + 1, index := 0 })

def LexerState.hasStrings (st : LexerState) : Bool :=
  st.outerIndex < st.strings.length

/-- `nextChar()`: the character at the cursor, if any. (JavaScript also
returns `undefined` for an empty fragment via the falsy check on `buf`;
out-of-range indexing gives the same result here.) -/
def LexerState.nextChar (st : LexerState) : Option Char :=
  match st.strings[st.outerIndex]? with
  | none => none
  | some buf => buf[st.index]?

/-- The unscanned suffix of the current fragment (what a sticky regex sees
when `lastIndex` is the cursor). -/
def LexerState.rest (st : LexerState) : List Char :=
  ((st.strings[st.outerIndex]?).getD []).drop st.index

/-! ### The main token pattern (`mainPattern`, lines 94-109)

Each alternative of the source regex becomes a prefix-matching function; the
alternatives are tried in the source order. The Unicode `ID_Start`/
`ID_Continue` classes (plus `$`, `_` and zero-width joiners) are restricted to
their ASCII core here; no claim depends on the exact character classes. -/

def isWsChar (c : Char) : Bool := c = ' ' ∨ c = '\t' ∨ c = '\n'

def isHexChar (c : Char) : Bool :=
  c.isDigit ∨ ('a' ≤ c ∧ c ≤ 'f') ∨ ('A' ≤ c ∧ c ≤ 'F') ∨ c = '_'

def isOctChar (c : Char) : Bool := ('0' ≤ c ∧ c ≤ '7') ∨ c = '_'

def isBinChar (c : Char) : Bool := c = '0' ∨ c = '1' ∨ c = '_'

def isDecChar (c : Char) : Bool := c.isDigit ∨ c = '_'

def isIdStartChar (c : Char) : Bool := c.isAlpha ∨ c = '$' ∨ c = '_'

def isIdContChar (c : Char) : Bool :=
  c.isAlpha ∨ c.isDigit ∨ c = '$' ∨ c = '_'

/-- The punctuation characters of the operator-run alternative. -/
def isOpRunChar (c : Char) : Bool :=
  c ∈ ['!', '@', '#', '%', '^', '&', '*', '-', '+', '=', '|', '/', ':', '<', '>', '.', '?', '~']

/-- The single reserved separator characters `[;{}()[\],]`. -/
def isSepChar (c : Char) : Bool :=
  c ∈ [';', '{', '}', '(', ')', '[', ']', ',']

inductive MainKind where
  | ws
  | lineComment
  | blockComment
  | number
  | ident
  | op
  deriving DecidableEq, Repr

def matchPrefixed (p : Char → Bool) (pre : List Char) (cs : List Char) :
    Option (List Char) :=
  match cs.take pre.length == pre, (cs.drop pre.length).takeWhile p with
  | true, [] => none
  | true, ds => some (pre ++ ds)
  | false, _ => none

/-- The decimal alternative `-?[0-9_]+(?:\.[0-9_]*)?(?:[eE]-?[0-9_])?`
(note the single digit after the exponent marker, as in the source). -/
def matchDec (cs : List Char) : Option (List Char) :=
  let (neg, cs1) :=
    match cs with
    | '-' :: r => ([('-' : Char)], r)
    | _ => (([] : List Char), cs)
  match cs1.takeWhile isDecChar with
  | [] => none
  | ds =>
    let cs2 := cs1.drop ds.length
    let (frac, cs3) :=
      match cs2 with
      | '.' :: r =>
        let fs := r.takeWhile isDecChar
        ('.' :: fs, r.drop fs.length)
      | _ => (([] : List Char), cs2)
    let expPart : List Char :=
      match cs3 with
      | e :: r =>
        if e = 'e' ∨ e = 'E' then
          match r with
          | '-' :: d :: _ => if isDecChar d then [e, '-', d] else []
          | d :: _ => if isDecChar d then [e, d] else []
          | [] => []
        else []
      | [] => []
    some (neg ++ ds ++ frac ++ expPart)

def matchIdent (cs : List Char) : Option (List Char) :=
  match cs with
  | c :: r => if isIdStartChar c then some (c :: r.takeWhile isIdContChar) else none
  | [] => none

def matchOp (cs : List Char) : Option (List Char) :=
  match cs with
  | c :: _ =>
    if isSepChar c then some [c]
    else
      match cs.takeWhile isOpRunChar with
      | [] => none
      | run => some run
  | [] => none

def matchWs (cs : List Char) : Option (List Char) :=
  match cs.takeWhile isWsChar with
  | [] => none
  | run => some run

/-- One match of `mainPattern` at the cursor: the alternatives in the source
order, each greedy, the first that succeeds wins. -/
def mainMatch (cs : List Char) : Option (MainKind × List Char) :=
  match matchWs cs with
  | some m => some (.ws, m)
  | none =>
  match cs.take 2 == ['/', '/'], cs.take 2 == ['/', '*'] with
  | true, _ => some (.lineComment, ['/', '/'])
  | _, true => some (.blockComment, ['/', '*'])
  | _, _ =>
  match matchPrefixed isHexChar ['0', 'x'] cs with
  | some m => some (.number, m)
  | none =>
  match matchPrefixed isOctChar ['0', 'o'] cs with
  | some m => some (.number, m)
  | none =>
  match matchPrefixed isBinChar ['0', 'b'] cs with
  | some m => some (.number, m)
  | none =>
  match matchDec cs with
  | some m => some (.number, m)
  | none =>
  match matchIdent cs with
  | some m => some (.ident, m)
  | none =>
  match matchOp cs with
  | some m => some (.op, m)
  | none => none

/-! ### Lexer loops (`quote`, `comment`, `mainState`, `tokenize`) -/

inductive LexErr where
  | noTokenMatch (index outerIndex : Nat)
  | newlineInString
  | stringLeftOpen
  | fuel
  deriving DecidableEq, Repr

/-- One maximal match of the quote-body alternative
`(?:\\[q\\]|[^\nq\\])+` for quote character `q`: the raw matched characters
(escapes are kept, not decoded — the source appends `match[1]` verbatim). -/
def quoteRun (q : Char) : List Char → List Char
  | '\\' :: c :: rest =>
    if c = q ∨ c = '\\' then '\\' :: c :: quoteRun q rest else []
  | c :: rest =>
    if c ≠ '\n' ∧ c ≠ q ∧ c ≠ '\\' then c :: quoteRun q rest else []
  | [] => []

/-- The loop of `quote(pattern, lexerState)` (lines 179-212): `tok` is the
in-progress string token (`value`, `length` mutable; `index`/`outerIndex`
fixed at creation). On fragment end with an interpolated value available, the
value is stringified into the body (its token is not pushed and the length is
not changed); on the closing quote the token is pushed; a character matching
neither alternative raises the `newline not allowed in string` error; running
out of fragments raises `string left open`. -/
def quoteGo : Nat → Char → Token → LexerState → Except LexErr LexerState
  | 0, _, _, _ => .error .fuel
  | f + 1, q, tok, st =>
    if st.hasStrings then
      match st.nextChar with
      | some c =>
        match quoteRun q st.rest with
        | [] =>
          if c = q then
            .ok (({ st with index := st.index + 1 }).push
              { tok with length := tok.length + 1 })
          else
            .error .newlineInString
        | run =>
          quoteGo f q
            { tok with value := tok.value.strApp (String.mk run),
                       length := tok.length + run.length }
            { st with index := st.index + run.length }
      | none =>
        match st.getInterpolation with
        | (some it, st') =>
          quoteGo f q { tok with value := tok.value.strApp (valueToString it.value) } st'
        | (none, st') => quoteGo f q tok st'
    else
      .error .stringLeftOpen

/-- Entry to `quote`: called from `mainState` after `index++`; the token
starts at the opening quote (`index - 1`) with length 1 and empty body. -/
def quoteStart (f : Nat) (q : Char) (st : LexerState) : Except LexErr LexerState :=
  quoteGo f q
    { type := .value, value := .str "", index := st.index - 1,
      outerIndex := st.outerIndex, length := 1 }
    st

inductive CommentKind where
  | line
  | block
  deriving DecidableEq, Repr

/-- One block-comment-body unit run: `(?:\*[^/]|[^*])+` (greedy). -/
def blockRun : List Char → List Char
  | '*' :: c :: rest =>
    if c ≠ '/' then '*' :: c :: blockRun rest else []
  | c :: rest =>
    if c ≠ '*' then c :: blockRun rest else []
  | [] => []

/-- One match of the comment pattern at the cursor: `some (isEnd, length)`,
or `none` when neither alternative matches (which ends the comment loop). -/
def commentMatch : CommentKind → List Char → Option (Bool × Nat)
  | .line, cs =>
    match cs.takeWhile (· ≠ '\n') with
    | [] => if cs.take 1 == ['\n'] then some (true, 1) else none
    | run => some (false, run.length)
  | .block, cs =>
    match blockRun cs with
    | [] => if cs.take 2 == ['*', '/'] then some (true, 2) else none
    | run => some (false, run.length)

/-- The loop of `comment(pattern, lexerState)` (lines 216-225): skip
characters until the closing alternative matches (or no alternative matches);
an interpolation reached mid-comment is consumed but its token is discarded. -/
def commentGo : Nat → CommentKind → LexerState → Except LexErr LexerState
  | 0, _, _ => .error .fuel
  | g + 1, k, st =>
    if st.hasStrings then
      match st.nextChar with
      | some _ =>
        match commentMatch k st.rest with
        | none => .ok st
        | some (isEnd, n) =>
          let st' := { st with index := st.index + n }
          if isEnd then .ok st' else commentGo g k st'
      | none => commentGo g k (st.getInterpolation).2
    else
      .ok st

/-- The loop of `mainState(lexerState)` (lines 111-174): per character,
dispatch on quotes, otherwise match `mainPattern` and emit a token (or skip
whitespace / run the comment sub-scanner); at fragment end, push the
interpolation-slot token (if a value is available) and move to the next
fragment. -/
def mainStateGo : Nat → LexerState → Except LexErr LexerState
  | 0, _ => .error .fuel
  | f + 1, st =>
    if st.hasStrings then
      match st.nextChar with
      | none =>
        match st.getInterpolation with
        | (tok?, st') => mainStateGo f (st'.pushOpt tok?)
      | some c =>
        if c = '\'' then
          match quoteStart f '\'' { st with index := st.index + 1 } with
          | .error e => .error e
          | .ok st' => mainStateGo f st'
        else if c = '"' then
          match quoteStart f '"' { st with index := st.index + 1 } with
          | .error e => .error e
          | .ok st' => mainStateGo f st'
        else
          let lastIndex := st.index
          match mainMatch st.rest with
          | none => .error (.noTokenMatch st.index st.outerIndex)
          | some (kind, matched) =>
            let st1 := { st with index := st.index + matched.length }
            match kind with
            | .ws => mainStateGo f st1
            | .lineComment =>
              match commentGo f .line st1 with
              | .error e => .error e
              | .ok st2 => mainStateGo f st2
            | .blockComment =>
              match commentGo f .block st1 with
              | .error e => .error e
              | .ok st2 => mainStateGo f st2
            | .number =>
              mainStateGo f (st1.push
                { type := .value, value := .numberFromString (String.mk matched),
                  index := lastIndex, outerIndex := st.outerIndex,
                  length := matched.length })
            | .ident =>
              mainStateGo f (st1.push
                { type := .identifier, value := .str (String.mk matched),
                  index := lastIndex, outerIndex := st.outerIndex,
                  length := matched.length })
            | .op =>
              mainStateGo f (st1.push
                { type := .operator, value := .str (String.mk matched),
                  index := lastIndex, outerIndex := st.outerIndex,
                  length := matched.length })
    else
      .ok st

/-- `tokenize(strs, interps)` (lines 227-231), with fuel. -/
def tokenizeF (f : Nat) (strs : List (List Char)) (interps : List Value) :
    Except LexErr (List Token) :=
  match mainStateGo f
    { strings := strs, interps := interps, index := 0, outerIndex := 0, tokens := [] } with
  | .error e => .error e
  | .ok st => .ok st.tokens

/-! ### Association lists (JavaScript `Map` in insertion order) -/

def assocGet {α β : Type} [DecidableEq α] (k : α) : List (α × β) → Option β
  | [] => none
  | (k', v) :: rest => if k = k' then some v else assocGet k rest

/-- `Map.set`: replace in place if the key is present, else append. -/
def assocSet {α β : Type} [DecidableEq α] (k : α) (v : β) :
    List (α × β) → List (α × β)
  | [] => [(k, v)]
  | (k', v') :: rest =>
    if k = k' then (k, v) :: rest else (k', v') :: assocSet k v rest

/-- `Set.add`: append if absent. -/
def addUnique {α : Type} [DecidableEq α] (x : α) (l : List α) : List α :=
  if x ∈ l then l else l ++ [x]

/-! ### The primitive AST (`SimpleAST`, lines 473-481) and rule table -/

/-- Reducer functions (`SeqFn`) are host functions over the value list. -/
abbrev SeqFn : Type := List Value → Value

/-- The primitive AST after simplification. Rule identifiers (JavaScript
`Symbol`s) are `Nat`. -/
inductive SimpleAST where
  | literal (value : String)
  | identifier
  | value
  | nonterminal (v : Nat)
  | repeat0 (expr : SimpleAST)
  | seq (exprs : List SimpleAST)
  | alt (exprs : List SimpleAST)
  | reduce (arity : Nat) (fn : Option SeqFn)

/-- The rule table: `Map<symbol, SimpleAST>` in insertion order. -/
abbrev Rules : Type := List (Nat × SimpleAST)

/-- A first-set, a JavaScript `Set` of branded terminals in insertion order
(duplicate-free by construction). -/
abbrev Terms : Type := List String

/-! ### First-set analysis (`FirstSetBuilder`, lines 678-742)

Every `throw` site of the analyzer and compiler has its own constructor;
`missingRule` stands for the runtime `TypeError` after the non-null assertion
`this.rules.get(node.value)!` on an absent rule, and `fuel` for exhaustion of
the explicit fuel (no counterpart in the source). The memo cache of
`FirstSetBuilder.get` (keyed on node object identity, written only after a
successful computation) is omitted: the computation is pure, so the cache
affects cost only; the claims concern the analysis of `getInner`. -/

inductive AErr where
  | leftRecursion (rule : Nat)
  | repeat0Epsilon
  | firstFollow (t : String)
  | firstFirst (t : String)
  | missingRule (rule : Nat)
  | fuel
  deriving DecidableEq, Repr

deriving instance DecidableEq for Except

/-- The inner `for (const terminal of ...)` loop shared by the `seq` and
`alt` cases: merge a child's first-set into the accumulated set, raising
`conflict t` on a terminal already present. -/
def addTerminals (conflict : String → AErr) (acc : Terms) : Terms → Except AErr Terms
  | [] => .ok acc
  | t :: ts =>
    if t ∈ acc then .error (conflict t)
    else addTerminals conflict (acc ++ [t]) ts

/-- The `seq` loop of `getInner` (lines 711-724): delete the end-of-input
marker, merge the next child's set (first/follow conflict on a duplicate),
stop once the accumulated set lacks end-of-input. -/
def seqFirstGo (recur : SimpleAST → Except AErr Terms) :
    List SimpleAST → Terms → Except AErr Terms
  | [], acc => .ok acc
  | e :: rest, acc =>
    let acc1 := acc.erase brandEof
    match recur e with
    | .error err => .error err
    | .ok s =>
      match addTerminals .firstFollow acc1 s with
      | .error err => .error err
      | .ok acc2 =>
        if brandEof ∈ acc2 then seqFirstGo recur rest acc2 else .ok acc2

/-- The `alt` loop of `getInner` (lines 725-735): union the children's sets,
first/first conflict on a duplicate. -/
def altFirstGo (recur : SimpleAST → Except AErr Terms) :
    List SimpleAST → Terms → Except AErr Terms
  | [], acc => .ok acc
  | e :: rest, acc =>
    match recur e with
    | .error err => .error err
    | .ok s =>
      match addTerminals .firstFirst acc s with
      | .error err => .error err
      | .ok acc' => altFirstGo recur rest acc'

/-- `FirstSetBuilder.getInner` (lines 687-741): `rs` is the `recurSet` of
rule identifiers currently being expanded; re-entering one of them is the
left-recursion error; `repeat0` rejects a child set containing end-of-input
and otherwise appends the end-of-input marker. -/
def firstSetF : Nat → Rules → SimpleAST → List Nat → Except AErr Terms
  | 0, _, _, _ => .error .fuel
  | f + 1, rules, node, rs =>
    match node with
    | .reduce _ _ => .ok [brandEof]
    | .literal v => .ok [brandLiteral v]
    | .identifier => .ok [brandType "identifier"]
    | .value => .ok [brandType "value"]
    | .nonterminal v =>
      if v ∈ rs then .error (.leftRecursion v)
      else
        match assocGet v rules with
        | none => .error (.missingRule v)
        | some next => firstSetF f rules next (rs ++ [v])
    | .repeat0 e =>
      match firstSetF f rules e rs with
      | .error err => .error err
      | .ok innerSet =>
        if brandEof ∈ innerSet then .error .repeat0Epsilon
        else .ok (innerSet ++ [brandEof])
    | .seq exprs => seqFirstGo (fun e => firstSetF f rules e rs) exprs [brandEof]
    | .alt exprs => altFirstGo (fun e => firstSetF f rules e rs) exprs []

/-! ### Spec-side description of the `seq` first-set accumulation

`seqFirstSpecGo` follows the spec's words for claim C4: accumulate the
first-set of each child in order, removing the end-of-input marker before
merging each child's set, raise a first/follow conflict exactly when a
terminal of the next child's set is already present in the accumulated set
(the merge loop is the same one the source runs, `addTerminals`), and stop
accumulating, without including end-of-input, at the first child whose set
lacks end-of-input. It is a function of the children's first-sets alone, to
be compared with the analyzer's computation on a `seq` node. -/

def seqFirstSpecGo : List Terms → Terms → Except AErr Terms
  | [], acc => .ok acc
  | s :: rest, acc =>
    match addTerminals .firstFollow (acc.erase brandEof) s with
    | .error err => .error err
    | .ok acc2 =>
      if brandEof ∈ acc2 then seqFirstSpecGo rest acc2 else .ok acc2

def seqFirstSpec (sets : List Terms) : Except AErr Terms :=
  seqFirstSpecGo sets [brandEof]

/-! ### Reducer helpers of the simplifier (lines 483-486) -/

/-- `_2 = (_, x) => x`: the second-argument projection (missing arguments are
`undefined`, as for a JavaScript call with too few arguments). -/
def proj2 : SeqFn := fun args => args.getD 1 .undefined

/-- `cons = (h, t) => [h, ...t]`. Spreading a non-array is a JavaScript
`TypeError`; it is collapsed to `undef` here and never reached by the claims. -/
def consFn : SeqFn := fun args =>
  match args.getD 1 .undefined with
  | .list t => .list (args.getD 0 .undefined :: t)
  | _ => .undefined

/-- `pushNull`: `reduce(0, () => null)`. -/
def pushNull : SimpleAST := .reduce 0 (some fun _ => .null)

/-- `pushArr`: `reduce(0, () => [])`. -/
def pushArr : SimpleAST := .reduce 0 (some fun _ => .list [])

/-! ### The surface grammar AST

Modelled from the spec: the grammar AST type lives in `core.ts`, which is not
under `src/` (only its consumer, `ASTSimplifier.simplify`, is). The node
shapes follow the spec's data model — in particular the `structure` node
carries an optional reducer (`structure(startTerm, content, endTerm,
reducer?)`); the simplifier in `src/` reads only its start token, content and
end token. The terminal kinds are the four of the spec
(identifier/value/keyword/operator). -/

inductive TKind where
  | identifier
  | value
  | keyword
  | operator
  deriving DecidableEq, Repr

inductive AST where
  | error (message : String)
  | ruleset (rules : List (String × AST))
  | literal (value : String)
  | terminal (value : TKind)
  | identifier (value : String)
  | structure (startToken : String) (expr : AST) (endToken : String) (fn : Option SeqFn)
  | seq (exprs : List AST) (fn : Option SeqFn)
  | alt (exprs : List AST)
  | repeat0 (expr : AST)
  | repeat1 (expr : AST)
  | maybe (expr : AST)
  | sepBy0 (expr : AST) (separator : AST)
  | sepBy1 (expr : AST) (separator : AST)

/-! ### Simplifier state (`ASTSimplifier`, `ScopeManager`, `LiteralManager`) -/

/-- The mutable pieces of `ASTSimplifier`: the rule table, the scope stack
(innermost first; JavaScript walks its array from the end), the two literal
classes, and the `Symbol` counter. Identifiers `0` and `1` are the
`keywordRule` and `operatorRule` symbols created with the `LiteralManager`. -/
structure SimpState where
  rules : Rules
  scopeStack : List (List (String × Nat))
  keywords : List String
  operators : List String
  nextId : Nat

def keywordRuleId : Nat := 0

def operatorRuleId : Nat := 1

/-- The state at `ASTSimplifier` construction. -/
def initSimpState : SimpState :=
  { rules := [], scopeStack := [], keywords := [], operators := [], nextId := 2 }

/-- Modelled from the spec: `identifierPattern` is exported by the `lexer`
module, which is not under `src/`; a literal is keyword-shaped when it
matches an identifier-like pattern (identifier start character followed by
identifier continue characters), operator-shaped otherwise. The claims do not
depend on the exact classification. -/
def isKeywordShaped (s : String) : Bool :=
  match s.data with
  | [] => false
  | c :: rest => isIdStartChar c && rest.all isIdContChar

/-- `LiteralManager.add` (lines 646-653): register the literal in its class,
return the `literal` primitive node. -/
def literalsAdd (v : String) (σ : SimpState) : SimpleAST × SimpState :=
  if isKeywordShaped v then
    (.literal v, { σ with keywords := addUnique v σ.keywords })
  else
    (.literal v, { σ with operators := addUnique v σ.operators })

/-- `ScopeManager.lookup` (lines 604-610): walk the scope stack outward. -/
inductive SErr where
  | astError (message : String)
  | unknownIdentifier (name : String)
  | emptyRuleset
  | missingFirstRule
  | fuel
  deriving Repr

def scopeLookup (name : String) : List (List (String × Nat)) → Except SErr Nat
  | [] => .error (.unknownIdentifier name)
  | scope :: outer =>
    match assocGet name scope with
    | some id => .ok id
    | none => scopeLookup name outer

/-- Allocate a fresh `Symbol(name)` for each rule of a ruleset, in order;
returns the name→symbol map (`assocSet`, so a duplicated name maps to its
last symbol, as for `Map.set`) and the symbol-keyed rule list. -/
def allocRules (rdefs : List (String × AST)) (scope : List (String × Nat))
    (next : Nat) : List (String × Nat) × List (Nat × AST) × Nat :=
  match rdefs with
  | [] => (scope, [], next)
  | (name, expr) :: rest =>
    let (scope', mapped, next') := allocRules rest (assocSet name next scope) (next + 1)
    (scope', (next, expr) :: mapped, next')

/-- The `addRule` loop of `compileRuleset` (lines 628-633): simplify each
rule body in order and enter it into the rule table. -/
def rulesetGo (recur : AST → SimpState → Except SErr (SimpleAST × SimpState)) :
    List (Nat × AST) → SimpState → Except SErr SimpState
  | [], σ => .ok σ
  | (sym, e) :: rest, σ =>
    match recur e σ with
    | .error err => .error err
    | .ok (e', σ') =>
      rulesetGo recur rest { σ' with rules := assocSet sym e' σ'.rules }

/-- Simplify a list of child expressions in order (the `map` of the `seq` and
`alt` cases). -/
def simplifyListGo (recur : AST → SimpState → Except SErr (SimpleAST × SimpState)) :
    List AST → SimpState → Except SErr (List SimpleAST × SimpState)
  | [], σ => .ok ([], σ)
  | e :: rest, σ =>
    match recur e σ with
    | .error err => .error err
    | .ok (e', σ') =>
      match simplifyListGo recur rest σ' with
      | .error err => .error err
      | .ok (es', σ'') => .ok (e' :: es', σ'')

/-- The shared `sepBy0`/`sepBy1` body (lines 563-594): allocate a fresh rule
symbol first (`const ruleName = Symbol()`), simplify the item and the
separator, install the auxiliary rule `R = item (sep R?)?` — that is,
`seq(item, alt(seq(sep, alt(R, pushArr), reduce(2, _2)), pushArr),
reduce(2, cons))` — and return the reference `nonterminal R`. -/
def sepByGo (recur : AST → SimpState → Except SErr (SimpleAST × SimpState))
    (item sep : AST) (σ : SimpState) : Except SErr (SimpleAST × SimpState) :=
  let ruleName := σ.nextId
  let σ0 := { σ with nextId := σ.nextId + 1 }
  match recur item σ0 with
  | .error err => .error err
  | .ok (e', σ1) =>
    match recur sep σ1 with
    | .error err => .error err
    | .ok (s', σ2) =>
      let recurN : SimpleAST := .nonterminal ruleName
      let sepRule : SimpleAST := .seq [e',
        .alt [.seq [s', .alt [recurN, pushArr], .reduce 2 (some proj2)], pushArr],
        .reduce 2 (some consFn)]
      .ok (recurN, { σ2 with rules := assocSet ruleName sepRule σ2.rules })

/-- `ASTSimplifier.simplify` (lines 507-599), with fuel (children are
simplified at fuel `f` from a node at fuel `f+1`). -/
def simplifyF : Nat → AST → SimpState → Except SErr (SimpleAST × SimpState)
  | 0, _, _ => .error .fuel
  | f + 1, node, σ =>
    match node with
    | .error m => .error (.astError m)
    | .ruleset rdefs =>
      match rdefs with
      | [] => .error .emptyRuleset
      | (firstName, _) :: _ =>
        let (nextScope, mapped, next') := allocRules rdefs [] σ.nextId
        let σ1 := { σ with nextId := next', scopeStack := nextScope :: σ.scopeStack }
        match rulesetGo (simplifyF f) mapped σ1 with
        | .error err => .error err
        | .ok σ2 =>
          let σ3 := { σ2 with scopeStack := σ2.scopeStack.tail }
          match assocGet firstName nextScope with
          | some fid => .ok (.nonterminal fid, σ3)
          | none => .error .missingFirstRule
    | .literal v => .ok (literalsAdd v σ)
    | .terminal k =>
      match k with
      | .keyword => .ok (.nonterminal keywordRuleId, σ)
      | .operator => .ok (.nonterminal operatorRuleId, σ)
      | .identifier => .ok (.identifier, σ)
      | .value => .ok (.value, σ)
    | .identifier name =>
      match scopeLookup name σ.scopeStack with
      | .error err => .error err
      | .ok id => .ok (.nonterminal id, σ)
    | .structure startToken e endToken _fn =>
      let (l1, σ1) := literalsAdd startToken σ
      match simplifyF f e σ1 with
      | .error err => .error err
      | .ok (e', σ2) =>
        let (l2, σ3) := literalsAdd endToken σ2
        .ok (.seq [l1, e', l2, .reduce 3 (some proj2)], σ3)
    | .seq exprs fn =>
      match simplifyListGo (simplifyF f) exprs σ with
      | .error err => .error err
      | .ok (es', σ') =>
        .ok (.seq (es' ++ [.reduce exprs.length fn]), σ')
    | .alt exprs =>
      match simplifyListGo (simplifyF f) exprs σ with
      | .error err => .error err
      | .ok (es', σ') => .ok (.alt es', σ')
    | .repeat0 e =>
      match simplifyF f e σ with
      | .error err => .error err
      | .ok (e', σ') => .ok (.repeat0 e', σ')
    | .repeat1 e =>
      match simplifyF f e σ with
      | .error err => .error err
      | .ok (e', σ') =>
        .ok (.seq [e', .repeat0 e', .reduce 2 (some consFn)], σ')
    | .maybe e =>
      match simplifyF f e σ with
      | .error err => .error err
      | .ok (e', σ') => .ok (.alt [e', pushNull], σ')
    | .sepBy0 item sep =>
      match sepByGo (simplifyF f) item sep σ with
      | .error err => .error err
      | .ok (recurN, σ') => .ok (.alt [recurN, pushArr], σ')
    | .sepBy1 item sep =>
      match sepByGo (simplifyF f) item sep σ with
      | .error err => .error err
      | .ok (recurN, σ') => .ok (recurN, σ')

/-! ### The compiled matcher tree and parse state (lines 355-471) -/

/-- The executable matcher classes: `MatchType`, `MatchLiteral`, `MatchRule`,
`Seq`, `Reduce`, `Alt` (with its terminal-keyed dispatch table) and `Repeat`
(with its first-set of the child). `MatchRule` holds the rule name; the
shared compiled-rule table is passed to `parseP`. -/
inductive Parser where
  | matchType (type : TokenType)
  | matchLiteral (value : String)
  | matchRule (ruleName : Nat)
  | seqP (parsers : List Parser)
  | reduceP (arity : Nat) (fn : Option SeqFn)
  | altP (parserMap : List (String × Parser))
  | repeatP (p : Parser) (matchSet : List String)

/-- `ParseState` (lines 355-378): token cursor plus value stack (`results`,
pushed at the end, popped from the end). -/
structure PState where
  tokens : List Token
  index : Nat
  results : List Value
  deriving DecidableEq, Repr

def PState.next (st : PState) : Option Token × PState :=
  (st.tokens[st.index]?, { st with index := st.index + 1 })

def PState.peek (st : PState) : Option Token :=
  st.tokens[st.index]?

def PState.push (st : PState) (v : Value) : PState :=
  { st with results := st.results ++ [v] }

/-- `ParseState.reduce` (lines 368-374): pop `arity` values (filling with
`undefined` past the bottom, as `Array.pop` on an empty array), apply `fn` to
them in their original order, push the result. -/
def reduceOp (arity : Nat) (fn : SeqFn) (results : List Value) : List Value :=
  let n := results.length
  if arity ≤ n then
    results.take (n - arity) ++ [fn (results.drop (n - arity))]
  else
    [fn (List.replicate (arity - n) .undefined ++ results)]

/-- `ParseState.done` (lines 375-377): pop the final value (`undefined` on an
empty stack). -/
def PState.done (st : PState) : Value :=
  (st.results.getLast?).getD .undefined

/-- Parse errors. `MatchError` carries the expected-terminals description and
the received token (or `none` for end of input); the growable `_stack` of
trace frames pushed by `MatchRule` is not modelled — no claim concerns it.
`missingRule` stands for the runtime `TypeError` of
`this.parsers.get(this.ruleName)!` on an absent rule, and `fuel` for fuel
exhaustion (no counterpart in the source). -/
inductive PError where
  | matchError (expected : String) (received : Option Token)
  | missingRule (rule : Nat)
  | fuel
  deriving DecidableEq, Repr

/-- The `Seq.parse` loop: run the children in order on the shared state. -/
def seqRunGo (run : Parser → PState → Except PError PState) :
    List Parser → PState → Except PError PState
  | [], st => .ok st
  | p :: ps, st =>
    match run p st with
    | .error e => .error e
    | .ok st' => seqRunGo run ps st'

/-- The `(arr, x) => [...arr, x]` reducer of `Repeat.parse`. -/
def snocFn : SeqFn := fun args =>
  match args.getD 0 .undefined with
  | .list arr => .list (arr ++ [args.getD 1 .undefined])
  | _ => .undefined

/-- The `Repeat.parse` loop (lines 458-471), after the `[]` seed is pushed:
peek; stop unless the lookahead's terminal key is in the match set; run the
child and fold its value into the list. -/
def repeatGo (runChild : PState → Except PError PState) (matchSet : List String) :
    Nat → PState → Except PError PState
  | 0, _ => .error .fuel
  | g + 1, st =>
    match st.peek with
    | none => .ok st
    | some t =>
      if brandToken (some t) ∈ matchSet then
        match runChild st with
        | .error e => .error e
        | .ok st' => repeatGo runChild matchSet g
            { st' with results := reduceOp 2 snocFn st'.results }
      else .ok st

/-- `Parser.parse` for every matcher class (lines 384-471), with fuel:
recursion into a sub-matcher runs at fuel `f` from `f+1`. -/
def parseP : Nat → List (Nat × Parser) → Parser → PState → Except PError PState
  | 0, _, _, _ => .error .fuel
  | f + 1, pmap, p, st =>
    match p with
    | .matchType ty =>
      match st.next with
      | (some t, st') =>
        if t.type = ty then .ok (st'.push t.value)
        else .error (.matchError (brandType (match ty with
          | .identifier => "identifier" | .value => "value"
          | .operator => "operator" | .keyword => "keyword")) (some t))
      | (none, _) =>
        .error (.matchError (brandType (match ty with
          | .identifier => "identifier" | .value => "value"
          | .operator => "operator" | .keyword => "keyword")) none)
    | .matchLiteral v =>
      match st.next with
      | (some t, st') =>
        if (t.type = .operator ∨ t.type = .keyword) ∧ t.value = .str v then
          .ok (st'.push t.value)
        else .error (.matchError (brandLiteral v) (some t))
      | (none, _) => .error (.matchError (brandLiteral v) none)
    | .matchRule r =>
      match assocGet r pmap with
      | some p' => parseP f pmap p' st
      | none => .error (.missingRule r)
    | .seqP ps => seqRunGo (parseP f pmap) ps st
    | .reduceP arity fn =>
      .ok { st with results := reduceOp arity (fn.getD (fun args => args.getD 0 .undefined)) st.results }
    | .altP pm =>
      let tok? := st.peek
      match assocGet (brandToken tok?) pm with
      | some p' => parseP f pmap p' st
      | none =>
        match assocGet brandEof pm with
        | some p' => parseP f pmap p' st
        | none =>
          .error (.matchError (String.intercalate "," (pm.map Prod.fst)) tok?)
    | .repeatP child matchSet =>
      repeatGo (parseP f pmap child) matchSet f
        { st with results := st.results ++ [.list []] }

/-- The body of the callable returned by `createParser` (lines 805-810),
after lexing: fresh `ParseState`, run the root matcher, return
`parseState.done()`. -/
def runParser (f : Nat) (pmap : List (Nat × Parser)) (root : Parser)
    (tokens : List Token) : Except PError Value :=
  match parseP f pmap root { tokens := tokens, index := 0, results := [] } with
  | .error e => .error e
  | .ok st => .ok st.done

/-! ### The parser compiler (`ParserCompiler`, lines 744-795) -/

/-- Build the dispatch table of an `alt` matcher: for each branch, enter its
compiled parser under every terminal of its first-set. (The source compiles
the branch once per terminal; compilation is pure, so a single compilation
per branch is entered under each key.) -/
def altCompileGo (firstOf : SimpleAST → Except AErr Terms)
    (compileOf : SimpleAST → Except AErr Parser) :
    List SimpleAST → List (String × Parser) → Except AErr (List (String × Parser))
  | [], pm => .ok pm
  | e :: rest, pm =>
    match firstOf e with
    | .error err => .error err
    | .ok s =>
      match compileOf e with
      | .error err => .error err
      | .ok p =>
        altCompileGo firstOf compileOf rest (s.foldl (fun pm t => assocSet t p pm) pm)

def compileListGo (compileOf : SimpleAST → Except AErr Parser) :
    List SimpleAST → Except AErr (List Parser)
  | [] => .ok []
  | e :: rest =>
    match compileOf e with
    | .error err => .error err
    | .ok p =>
      match compileListGo compileOf rest with
      | .error err => .error err
      | .ok ps => .ok (p :: ps)

/-- `ParserCompiler.compile` (lines 759-794), with fuel for the embedded
first-set computations (`this.firstSet.get`, run — and therefore validated —
only at `repeat0`, `seq` and `alt` nodes). -/
def compileP : Nat → Rules → SimpleAST → Except AErr Parser
  | 0, _, _ => .error .fuel
  | f + 1, rules, node =>
    match node with
    | .reduce arity fn => .ok (.reduceP arity fn)
    | .literal v => .ok (.matchLiteral v)
    | .identifier => .ok (.matchType .identifier)
    | .value => .ok (.matchType .value)
    | .nonterminal v => .ok (.matchRule v)
    | .repeat0 e =>
      match firstSetF (f + 1) rules (.repeat0 e) [] with
      | .error err => .error err
      | .ok _ =>
        match compileP f rules e with
        | .error err => .error err
        | .ok p =>
          match firstSetF f rules e [] with
          | .error err => .error err
          | .ok s => .ok (.repeatP p s)
    | .seq exprs =>
      match firstSetF (f + 1) rules (.seq exprs) [] with
      | .error err => .error err
      | .ok _ =>
        match compileListGo (compileP f rules) exprs with
        | .error err => .error err
        | .ok ps => .ok (.seqP ps)
    | .alt exprs =>
      match firstSetF (f + 1) rules (.alt exprs) [] with
      | .error err => .error err
      | .ok _ =>
        match altCompileGo (fun e => firstSetF f rules e []) (compileP f rules) exprs [] with
        | .error err => .error err
        | .ok pm => .ok (.altP pm)

/-- `ParserCompiler.compileRuleset` (lines 750-758): compile every rule of
the table, in insertion order, into the shared compiled-rule table. A thrown
grammar error aborts the whole compilation. -/
def compileRulesetGo (compileOf : SimpleAST → Except AErr Parser) :
    Rules → Except AErr (List (Nat × Parser))
  | [] => .ok []
  | (name, node) :: rest =>
    match compileOf node with
    | .error err => .error err
    | .ok p =>
      match compileRulesetGo compileOf rest with
      | .error err => .error err
      | .ok ps => .ok ((name, p) :: ps)

def compileRulesetF (f : Nat) (rules : Rules) : Except AErr (List (Nat × Parser)) :=
  compileRulesetGo (compileP f rules) rules

/-! ### Definitions used only to state the claims -/

/-- Disjointness of two first-sets (no terminal of `s` occurs in `t`). -/
def ListDisjoint (s t : Terms) : Prop := ∀ x ∈ s, x ∉ t

instance : ∀ s t : Terms, Decidable (ListDisjoint s t) := fun s t =>
  inferInstanceAs (Decidable (∀ x ∈ s, x ∉ t))

/-- In how many of the branches' first-sets a terminal occurs. -/
def sharedCount (t : String) (sets : List Terms) : Nat :=
  sets.countP (fun s => decide (t ∈ s))

/-- The reducer the claim C5 describes for a `structure` node: the
second-argument projection composed with the user-supplied reducer when one
is present (the reducer applied to the projected second argument). -/
def specStructureFn : Option SeqFn → SeqFn
  | none => proj2
  | some r => fun args => r [proj2 args]

/-- Extract the reduce function produced for a `structure` node by the
simplifier and apply it; used to observe the function's behaviour. -/
def structReduceApply (res : Except SErr (SimpleAST × SimpState))
    (args : List Value) : Value :=
  match res with
  | .ok (.seq [_, _, _, .reduce _ (some f)], _) => f args
  | _ => .undefined

/-- A user reducer with observable behaviour (constantly `99`). -/
def constReducer : SeqFn := fun _ => .num 99

/-- The auxiliary rule `R = item (sep R?)?` installed for `sepBy0`/`sepBy1`
with simplified item `i`, simplified separator `s` and fresh symbol `r`. -/
def sepRuleOf (i s : SimpleAST) (r : Nat) : SimpleAST :=
  .seq [i,
    .alt [.seq [s, .alt [.nonterminal r, pushArr], .reduce 2 (some proj2)], pushArr],
    .reduce 2 (some consFn)]

/-- A keyword token carrying `"a"`, for concrete parse runs. -/
def kwTokA : Token :=
  { type := .keyword, value := .str "a", index := 0, outerIndex := 0, length := 1 }

/-- An operator token carrying `","`, for concrete parse runs. -/
def opTokComma : Token :=
  { type := .operator, value := .str ",", index := 0, outerIndex := 0, length := 1 }

/-- An operator token carrying `"x"`, for concrete parse runs. -/
def opTokX : Token :=
  { type := .operator, value := .str "x", index := 0, outerIndex := 0, length := 1 }

/-- An operator token carrying `"y"`, for concrete parse runs. -/
def opTokY : Token :=
  { type := .operator, value := .str "y", index := 0, outerIndex := 0, length := 1 }

/-- Rule-identifier bookkeeping across one simplifier step: the symbol
counter is monotone, and every rule key present afterwards was either present
before or was freshly allocated during the step (at or above the old counter,
below the new one). -/
def SimpBound (σ σ' : SimpState) : Prop :=
  σ.nextId ≤ σ'.nextId ∧
  ∀ id ∈ σ'.rules.map Prod.fst,
    id ∈ σ.rules.map Prod.fst ∨ (σ.nextId ≤ id ∧ id < σ'.nextId)

/-! ## Theorems

General lemmas about the analyzer loops first, then one theorem per claim
(with its witness or counterexample). -/

theorem addTerminals_ok_eq {c : String → AErr} {s : Terms} :
    ∀ {acc u : Terms}, addTerminals c acc s = .ok u → u = acc ++ s := by
  induction s with
  | nil => intro acc u h; simpa [addTerminals] using h.symm
  | cons t ts ih =>
    intro acc u h
    by_cases hm : t ∈ acc
    · simp [addTerminals, hm] at h
    · simp only [addTerminals, hm, if_neg, ite_false] at h
      have := ih h
      simp [this]

theorem addTerminals_ok_of {c : String → AErr} {s : Terms} :
    ∀ {acc : Terms}, s.Nodup → ListDisjoint s acc →
      addTerminals c acc s = .ok (acc ++ s) := by
  induction s with
  | nil => intro acc _ _; simp [addTerminals]
  | cons t ts ih =>
    intro acc hnd hdisj
    have hm : t ∉ acc := hdisj t (by simp)
    have hnd' : ts.Nodup := hnd.of_cons
    have htts : t ∉ ts := (List.nodup_cons.mp hnd).1
    have hdisj' : ListDisjoint ts (acc ++ [t]) := by
      intro x hx
      simp only [List.mem_append, List.mem_singleton]
      rintro (hxa | rfl)
      · exact hdisj x (by simp [hx]) hxa
      · exact htts hx
    have := ih hnd' hdisj'
    simp [addTerminals, hm, this]

theorem addTerminals_of_ok {c : String → AErr} {s : Terms} :
    ∀ {acc u : Terms}, addTerminals c acc s = .ok u →
      s.Nodup ∧ ListDisjoint s acc := by
  induction s with
  | nil => intro acc u _; exact ⟨List.nodup_nil, by intro x hx; simp at hx⟩
  | cons t ts ih =>
    intro acc u h
    by_cases hm : t ∈ acc
    · simp [addTerminals, hm] at h
    · simp only [addTerminals, hm, if_neg, ite_false] at h
      obtain ⟨hnd, hdisj⟩ := ih h
      refine ⟨List.nodup_cons.mpr ⟨fun hts => ?_, hnd⟩, ?_⟩
      · exact hdisj t hts (by simp)
      · intro x hx
        rcases List.mem_cons.mp hx with rfl | hx'
        · exact hm
        · intro hxa
          exact hdisj x hx' (by simp [hxa])

theorem addTerminals_error_mem {c : String → AErr} {s : Terms} :
    ∀ {acc : Terms} {e : AErr}, addTerminals c acc s = .error e →
      ∃ t, e = c t ∧ t ∈ s ∧ (s.Nodup → t ∈ acc) := by
  induction s with
  | nil => intro acc e h; simp [addTerminals] at h
  | cons t ts ih =>
    intro acc e h
    by_cases hm : t ∈ acc
    · simp only [addTerminals, hm, if_pos, ite_true, Except.error.injEq] at h
      exact ⟨t, h.symm, by simp, fun _ => hm⟩
    · simp only [addTerminals, hm, if_neg, ite_false] at h
      obtain ⟨t', he, hts, hacc⟩ := ih h
      refine ⟨t', he, by simp [hts], fun hnd => ?_⟩
      have := hacc (List.nodup_cons.mp hnd).2
      rcases List.mem_append.mp this with h1 | h1
      · exact h1
      · have ht't : t' = t := List.mem_singleton.mp h1
        exact absurd (ht't ▸ hts) (List.nodup_cons.mp hnd).1

theorem listDisjoint_symm {s t : Terms} (h : ListDisjoint s t) : ListDisjoint t s :=
  fun x hx hxs => h x hxs hx

theorem listDisjoint_nil (s : Terms) : ListDisjoint s [] :=
  fun x _ hx => by simp at hx

theorem listDisjoint_append {s a b : Terms} :
    ListDisjoint s (a ++ b) ↔ ListDisjoint s a ∧ ListDisjoint s b := by
  constructor
  · intro h
    exact ⟨fun x hx hxa => h x hx (by simp [hxa]),
           fun x hx hxb => h x hx (by simp [hxb])⟩
  · rintro ⟨ha, hb⟩ x hx hxab
    rcases List.mem_append.mp hxab with h1 | h1
    · exact ha x hx h1
    · exact hb x hx h1

theorem altFirstGo_ok_iff {recur : SimpleAST → Except AErr Terms} :
    ∀ {exprs : List SimpleAST} {sets : List Terms} {acc : Terms},
      List.Forall₂ (fun e s => recur e = .ok s) exprs sets →
      (∀ s ∈ sets, s.Nodup) → acc.Nodup →
      ((∃ u, altFirstGo recur exprs acc = .ok u) ↔
        (sets.Pairwise ListDisjoint ∧ ∀ s ∈ sets, ListDisjoint s acc)) := by
  intro exprs
  induction exprs with
  | nil =>
    intro sets acc h _ _
    cases h
    simp [altFirstGo, List.Pairwise.nil]
  | cons e es ih =>
    intro sets acc h hnd hacc
    rcases sets with _ | ⟨s, ss⟩
    · cases h
    have he : recur e = .ok s := (List.forall₂_cons.mp h).1
    have htail : List.Forall₂ (fun e s => recur e = .ok s) es ss := (List.forall₂_cons.mp h).2
    have hsnd : s.Nodup := hnd s (by simp)
    have hssnd : ∀ s' ∈ ss, s'.Nodup := fun s' hs' => hnd s' (by simp [hs'])
    simp only [altFirstGo, he]
    cases hat : addTerminals AErr.firstFirst acc s with
    | error err =>
      obtain ⟨t, _, hts, htacc⟩ := addTerminals_error_mem hat
      have htacc' : t ∈ acc := htacc hsnd
      simp only []
      constructor
      · rintro ⟨u, hu⟩
        simp at hu
      · rintro ⟨_, hdisj⟩
        exact absurd htacc' (hdisj s (by simp) t hts)
    | ok acc' =>
      have hacceq : acc' = acc ++ s := addTerminals_ok_eq hat
      obtain ⟨_, hdisjsacc⟩ := addTerminals_of_ok hat
      have hacc' : acc'.Nodup := by
        rw [hacceq]
        exact List.nodup_append.mpr ⟨hacc, hsnd, fun x hx hxs => hdisjsacc x hxs hx⟩
      have hIH := ih htail hssnd hacc'
      simp only []
      rw [hIH, hacceq]
      constructor
      · rintro ⟨hpw, hd⟩
        refine ⟨List.pairwise_cons.mpr ⟨fun s' hs' => ?_, hpw⟩, ?_⟩
        · exact listDisjoint_symm ((listDisjoint_append.mp (hd s' hs')).2)
        · intro s' hs'
          rcases List.mem_cons.mp hs' with rfl | hs''
          · exact hdisjsacc
          · exact (listDisjoint_append.mp (hd s' hs'')).1
      · rintro ⟨hpw, hd⟩
        obtain ⟨hhead, htl⟩ := List.pairwise_cons.mp hpw
        exact ⟨htl, fun s' hs' => listDisjoint_append.mpr
          ⟨hd s' (by simp [hs']), listDisjoint_symm (hhead s' hs')⟩⟩

theorem altFirstGo_error_char {recur : SimpleAST → Except AErr Terms} :
    ∀ {exprs : List SimpleAST} {sets : List Terms} {acc : Terms} {err : AErr},
      List.Forall₂ (fun e s => recur e = .ok s) exprs sets →
      (∀ s ∈ sets, s.Nodup) →
      altFirstGo recur exprs acc = .error err →
      ∃ t, err = .firstFirst t ∧ (∃ s ∈ sets, t ∈ s) ∧
        (t ∈ acc ∨ 2 ≤ sharedCount t sets) := by
  intro exprs
  induction exprs with
  | nil =>
    intro sets acc err h _ he
    cases h
    simp [altFirstGo] at he
  | cons e es ih =>
    intro sets acc err h hnd herr
    rcases sets with _ | ⟨s, ss⟩
    · cases h
    have he : recur e = .ok s := (List.forall₂_cons.mp h).1
    have htail : List.Forall₂ (fun e s => recur e = .ok s) es ss := (List.forall₂_cons.mp h).2
    have hsnd : s.Nodup := hnd s (by simp)
    have hssnd : ∀ s' ∈ ss, s'.Nodup := fun s' hs' => hnd s' (by simp [hs'])
    simp only [altFirstGo, he] at herr
    cases hat : addTerminals AErr.firstFirst acc s with
    | error err' =>
      rw [hat] at herr
      simp only [Except.error.injEq] at herr
      obtain ⟨t, hte, hts, htacc⟩ := addTerminals_error_mem hat
      refine ⟨t, herr ▸ hte, ⟨s, by simp, hts⟩, .inl (htacc hsnd)⟩
    | ok acc' =>
      rw [hat] at herr
      simp only [] at herr
      have hacceq : acc' = acc ++ s := addTerminals_ok_eq hat
      obtain ⟨t, hte, ⟨s', hs', hts'⟩, hrest⟩ := ih htail hssnd herr
      refine ⟨t, hte, ⟨s', by simp [hs'], hts'⟩, ?_⟩
      have hcount1 : 1 ≤ sharedCount t ss := by
        have : decide (t ∈ s') = true := by simp [hts']
        calc 1 ≤ List.countP (fun s => decide (t ∈ s)) ss := by
              exact List.countP_pos_iff.mpr ⟨s', hs', this⟩
          _ = sharedCount t ss := rfl
      rcases hrest with htacc' | hcount
      · rw [hacceq] at htacc'
        rcases List.mem_append.mp htacc' with h1 | h1
        · exact .inl h1
        · refine .inr ?_
          have : sharedCount t (s :: ss) = sharedCount t ss + 1 := by
            simp [sharedCount, List.countP_cons, h1]
          omega
      · refine .inr ?_
        have : sharedCount t ss ≤ sharedCount t (s :: ss) := by
          simp only [sharedCount, List.countP_cons]
          omega
        omega

theorem seqFirstGo_spec {recur : SimpleAST → Except AErr Terms} :
    ∀ {exprs : List SimpleAST} {sets : List Terms} {acc : Terms},
      List.Forall₂ (fun e s => recur e = .ok s) exprs sets →
      seqFirstGo recur exprs acc = seqFirstSpecGo sets acc := by
  intro exprs
  induction exprs with
  | nil =>
    intro sets acc h
    cases h
    simp [seqFirstGo, seqFirstSpecGo]
  | cons e es ih =>
    intro sets acc h
    rcases sets with _ | ⟨s, ss⟩
    · cases h
    have he : recur e = .ok s := (List.forall₂_cons.mp h).1
    have htail : List.Forall₂ (fun e s => recur e = .ok s) es ss := (List.forall₂_cons.mp h).2
    simp only [seqFirstGo, seqFirstSpecGo, he]
    cases hat : addTerminals AErr.firstFollow (acc.erase brandEof) s with
    | error err => simp
    | ok acc2 =>
      simp only []
      by_cases heof : brandEof ∈ acc2
      · simp only [heof, if_pos, ite_true]
        exact ih htail
      · simp [heof]

theorem seqFirstSpecGo_eof :
    ∀ {sets : List Terms} {acc u : Terms}, acc.Nodup →
      seqFirstSpecGo sets acc = .ok u → brandEof ∈ u →
      ∀ s ∈ sets, brandEof ∈ s := by
  intro sets
  induction sets with
  | nil => intro acc u _ _ _ s hs; simp at hs
  | cons s ss ih =>
    intro acc u hacc h heof s' hs'
    simp only [seqFirstSpecGo] at h
    cases hat : addTerminals AErr.firstFollow (acc.erase brandEof) s with
    | error err => rw [hat] at h; simp at h
    | ok acc2 =>
      rw [hat] at h
      simp only [] at h
      have hacc2eq : acc2 = acc.erase brandEof ++ s := addTerminals_ok_eq hat
      obtain ⟨hsnd, hdisj⟩ := addTerminals_of_ok hat
      have hacc2nd : acc2.Nodup := by
        rw [hacc2eq]
        exact List.nodup_append.mpr
          ⟨hacc.erase brandEof, hsnd, fun x hx hxs => hdisj x hxs hx⟩
      have heof_notin : brandEof ∉ acc.erase brandEof := hacc.not_mem_erase
      by_cases h2 : brandEof ∈ acc2
      · have heofs : brandEof ∈ s := by
          rw [hacc2eq] at h2
          rcases List.mem_append.mp h2 with h1 | h1
          · exact absurd h1 heof_notin
          · exact h1
        simp only [h2, if_pos, ite_true] at h
        rcases List.mem_cons.mp hs' with rfl | hs''
        · exact heofs
        · exact ih hacc2nd h heof s' hs''
      · simp only [h2, if_neg, ite_false, Except.ok.injEq] at h
        subst h
        exact absurd heof h2

/-- Claim C2: for every `alt` node (with the branches' first-sets given),
compilation succeeds only if the branches' first-sets are pairwise disjoint —
the analysis succeeds exactly when they are pairwise disjoint, and a compiled
`alt` presupposes a successful analysis; when some terminal occurs in the
first-sets of two branches, the analysis and compilation fail with a
first/first conflict error naming a terminal shared by two branches. -/
theorem c2_alt_first_first_conflict {f : Nat} {rules : Rules}
    {exprs : List SimpleAST} {sets : List Terms}
    (h : List.Forall₂ (fun e s => firstSetF f rules e [] = .ok s) exprs sets)
    (hnd : ∀ s ∈ sets, s.Nodup) :
    ((∃ u, firstSetF (f + 1) rules (.alt exprs) [] = .ok u) ↔
      sets.Pairwise ListDisjoint) ∧
    ((∃ P, compileP (f + 1) rules (.alt exprs) = .ok P) →
      sets.Pairwise ListDisjoint) ∧
    (∀ t, firstSetF (f + 1) rules (.alt exprs) [] = .error (.firstFirst t) →
      2 ≤ sharedCount t sets) ∧
    (¬ sets.Pairwise ListDisjoint →
      ∃ t, firstSetF (f + 1) rules (.alt exprs) [] = .error (.firstFirst t) ∧
        2 ≤ sharedCount t sets ∧
        compileP (f + 1) rules (.alt exprs) = .error (.firstFirst t)) := by
  have hfs : firstSetF (f + 1) rules (.alt exprs) [] =
      altFirstGo (fun e => firstSetF f rules e []) exprs [] := by
    simp [firstSetF]
  have hiff0 := altFirstGo_ok_iff h hnd List.nodup_nil
  have hiff : (∃ u, firstSetF (f + 1) rules (.alt exprs) [] = .ok u) ↔
      sets.Pairwise ListDisjoint := by
    rw [hfs, hiff0]
    exact and_iff_left (fun s _ => listDisjoint_nil s)
  refine ⟨hiff, ?_, ?_, ?_⟩
  · rintro ⟨P, hP⟩
    simp only [compileP] at hP
    cases hres : firstSetF (f + 1) rules (.alt exprs) [] with
    | error err =>
      rw [hres] at hP
      simp at hP
    | ok u => exact hiff.mp ⟨u, hres⟩
  · intro t herr
    rw [hfs] at herr
    obtain ⟨t', ht', _, hcase⟩ := altFirstGo_error_char h hnd herr
    have htt : t' = t := by
      cases ht'
      rfl
    subst htt
    rcases hcase with h1 | h1
    · simp at h1
    · exact h1
  · intro hnp
    have hne : ¬ ∃ u, firstSetF (f + 1) rules (.alt exprs) [] = .ok u :=
      fun hok => hnp (hiff.mp hok)
    cases hres : firstSetF (f + 1) rules (.alt exprs) [] with
    | ok u => exact absurd ⟨u, hres⟩ hne
    | error err =>
      have hres' : altFirstGo (fun e => firstSetF f rules e []) exprs [] = .error err := by
        rw [← hfs]
        exact hres
      obtain ⟨t, hte, _, hcase⟩ := altFirstGo_error_char h hnd hres'
      subst hte
      have hcount : 2 ≤ sharedCount t sets := by
        rcases hcase with h1 | h1
        · simp at h1
        · exact h1
      refine ⟨t, rfl, hcount, ?_⟩
      simp only [compileP]
      rw [hfs, hres']

/-- Witness for C2 at the conflicting alternation `"x" | "x"`: the analysis
does not succeed (the branches' first-sets are not pairwise disjoint), and
the first/first error it reports names a terminal occurring in two branches. -/
theorem c2_alt_first_first_conflict_witness :
    ((∃ u, firstSetF 2 [] (.alt [.literal "x", .literal "x"]) [] = .ok u) ↔
      ([[brandLiteral "x"], [brandLiteral "x"]] : List Terms).Pairwise ListDisjoint) ∧
    2 ≤ sharedCount (brandLiteral "x") [[brandLiteral "x"], [brandLiteral "x"]] := by
  have h : List.Forall₂
      (fun e s => firstSetF 1 [] e [] = .ok s)
      [SimpleAST.literal "x", SimpleAST.literal "x"]
      [[brandLiteral "x"], [brandLiteral "x"]] :=
    .cons (by decide) (.cons (by decide) .nil)
  have hnd : ∀ s ∈ [[brandLiteral "x"], [brandLiteral "x"]], List.Nodup s := by decide
  refine ⟨(c2_alt_first_first_conflict h hnd).1, ?_⟩
  exact (c2_alt_first_first_conflict h hnd).2.2.1 (brandLiteral "x") (by decide)

/-- Claim C3: for a `repeat0` node whose child's first-set contains the
end-of-input marker, the analysis — and compilation, which runs it — fails
with the epsilon-repeat error; when the child's first-set excludes the
marker, no error is raised, the node's first-set is the child's set plus the
end-of-input marker, and compilation yields the `Repeat` matcher dispatching
on the child's first-set. -/
theorem c3_repeat0_epsilon {f : Nat} {rules : Rules} {e : SimpleAST}
    {s : Terms} {p : Parser}
    (h : firstSetF f rules e [] = .ok s) (hc : compileP f rules e = .ok p) :
    (brandEof ∈ s →
      firstSetF (f + 1) rules (.repeat0 e) [] = .error .repeat0Epsilon ∧
      compileP (f + 1) rules (.repeat0 e) = .error .repeat0Epsilon) ∧
    (brandEof ∉ s →
      firstSetF (f + 1) rules (.repeat0 e) [] = .ok (s ++ [brandEof]) ∧
      compileP (f + 1) rules (.repeat0 e) = .ok (.repeatP p s)) := by
  constructor
  · intro heof
    have h1 : firstSetF (f + 1) rules (.repeat0 e) [] = .error .repeat0Epsilon := by
      simp [firstSetF, h, heof]
    refine ⟨h1, ?_⟩
    simp only [compileP]
    rw [h1]
  · intro heof
    have h1 : firstSetF (f + 1) rules (.repeat0 e) [] = .ok (s ++ [brandEof]) := by
      simp [firstSetF, h, heof]
    refine ⟨h1, ?_⟩
    simp only [compileP]
    rw [h1, hc, h]

/-- Witness for C3: the child `"x"` has first-set without end-of-input, so
`("x")*` analyzes to that set plus end-of-input and compiles to a `Repeat`
matcher; the child `reduce` (an empty match) has first-set containing
end-of-input, so `(reduce)*` is rejected. -/
theorem c3_repeat0_epsilon_witness :
    (firstSetF 2 [] (.repeat0 (.literal "x")) [] =
      .ok [brandLiteral "x", brandEof] ∧
     compileP 2 [] (.repeat0 (.literal "x")) =
      .ok (.repeatP (.matchLiteral "x") [brandLiteral "x"])) ∧
    firstSetF 2 [] (.repeat0 (.reduce 0 none)) [] = .error .repeat0Epsilon := by
  have h1 : firstSetF 1 [] (.literal "x") [] = .ok [brandLiteral "x"] := by decide
  have h2 : compileP 1 [] (.literal "x") = .ok (.matchLiteral "x") := rfl
  have h3 : firstSetF 1 [] (.reduce 0 none) [] = .ok [brandEof] := by decide
  have h4 : compileP 1 [] (.reduce 0 none) = .ok (.reduceP 0 none) := rfl
  constructor
  · exact (c3_repeat0_epsilon h1 h2).2 (by decide)
  · exact ((c3_repeat0_epsilon h3 h4).1 (by decide)).1

/-- Claim C4: the analysis of a `seq` node is exactly the spec-described
accumulation over the children's first-sets (`seqFirstSpec`): merge each
child's set in order after removing the end-of-input marker, raise a
first/follow conflict exactly when a terminal of the next child's set is
already in the accumulated set, and stop, without end-of-input, at the first
child whose set lacks end-of-input; moreover the resulting set contains
end-of-input only if every child's first-set does. -/
theorem c4_seq_first_accumulation {f : Nat} {rules : Rules}
    {exprs : List SimpleAST} {sets : List Terms} {rs : List Nat}
    (h : List.Forall₂ (fun e s => firstSetF f rules e rs = .ok s) exprs sets) :
    firstSetF (f + 1) rules (.seq exprs) rs = seqFirstSpec sets ∧
    (∀ u, seqFirstSpec sets = .ok u → brandEof ∈ u → ∀ s ∈ sets, brandEof ∈ s) := by
  constructor
  · simp only [firstSetF, seqFirstSpec]
    exact seqFirstGo_spec h
  · intro u hu heof
    exact seqFirstSpecGo_eof (by simp) hu heof

/-- Witness for C4 at `"x" "y"`: accumulation stops at the first child (whose
set lacks end-of-input), giving exactly the spec-side accumulation result. -/
theorem c4_seq_first_accumulation_witness :
    firstSetF 2 [] (.seq [.literal "x", .literal "y"]) [] =
      seqFirstSpec [[brandLiteral "x"], [brandLiteral "y"]] ∧
    firstSetF 2 [] (.seq [.literal "x", .literal "y"]) [] =
      .ok [brandLiteral "x"] := by
  have h : List.Forall₂
      (fun e s => firstSetF 1 [] e [] = .ok s)
      [SimpleAST.literal "x", SimpleAST.literal "y"]
      [[brandLiteral "x"], [brandLiteral "y"]] :=
    .cons (by decide) (.cons (by decide) .nil)
  exact ⟨(c4_seq_first_accumulation h).1, by decide⟩

/-- Claim C1 (code bug): the one-rule table `{A ↦ nonterminal A}` — produced,
for example, by the grammar `A = A` — is directly left recursive, and the
first-set analyzer itself reports left recursion on `A` the moment it is
actually run on the rule (first conjunct). Yet compiling the whole table
raises no error at any fuel (second conjunct): `ParserCompiler.compile` runs
the analysis only at `repeat0`, `seq` and `alt` nodes, and a bare
`nonterminal` alias compiles straight to a `MatchRule`. The compiled parser
then recurses through the rule reference forever at parse time: for every
fuel and every state, parsing only exhausts the fuel (third conjunct) — the
stack overflow of the source. -/
theorem c1_left_recursion_not_rejected :
    firstSetF 2 [(0, SimpleAST.nonterminal 0)] (.nonterminal 0) [] =
      .error (.leftRecursion 0) ∧
    (∀ f : Nat, compileRulesetF (f + 1) [(0, SimpleAST.nonterminal 0)] =
      .ok [(0, Parser.matchRule 0)]) ∧
    (∀ (f : Nat) (st : PState),
      parseP f [(0, Parser.matchRule 0)] (.matchRule 0) st = .error .fuel) := by
  refine ⟨by decide, fun f => rfl, ?_⟩
  intro f
  induction f with
  | zero => intro st; rfl
  | succ g ih =>
    intro st
    simp only [parseP, assocGet, if_pos]
    exact ih st

/-- Claim C7: an `Alt` matcher peeks at the next token without consuming it
(the chosen branch runs on the same, unadvanced state), looks the token's
terminal key up in the precomputed dispatch table, falls back to the
end-of-input entry when that key has no entry, and, when neither lookup
yields a branch, raises a match error whose expected-terminals description
joins all keys of the dispatch table, carrying the peeked token. -/
theorem c7_alt_dispatch (f : Nat) (pmap : List (Nat × Parser))
    (pm : List (String × Parser)) (st : PState) :
    parseP (f + 1) pmap (.altP pm) st =
      match (assocGet (brandToken st.peek) pm).orElse
          (fun _ => assocGet brandEof pm) with
      | some p' => parseP f pmap p' st
      | none =>
        .error (.matchError (String.intercalate "," (pm.map Prod.fst)) st.peek) := by
  simp only [parseP]
  cases h1 : assocGet (brandToken st.peek) pm with
  | some p' => rfl
  | none =>
    cases h2 : assocGet brandEof pm with
    | some p' => rfl
    | none => rfl

/-- Claim C10: when the root matcher succeeds, the parse returns the value
popped from the top of the result stack — `createParser`'s callable never
compares the cursor with the token count, so a success consuming only a
proper prefix of the tokens (the hypothesis, unused by the proof precisely
because no such check exists) raises no error and the trailing tokens are
silently ignored. -/
theorem c10_trailing_tokens_ignored {f : Nat} {pmap : List (Nat × Parser)}
    {root : Parser} {ts : List Token} {st' : PState}
    (h : parseP f pmap root { tokens := ts, index := 0, results := [] } = .ok st')
    (hproper : st'.index < ts.length) :
    runParser f pmap root ts = .ok st'.done := by
  simp only [runParser, h]

/-- Witness for C10: matching the single literal `x` against the token stream
`x y` consumes one of two tokens and still returns the reduced value
`"x"` with no error. -/
theorem c10_trailing_tokens_ignored_witness :
    runParser 3 [] (.matchLiteral "x") [opTokX, opTokY] = .ok (.str "x") := by
  have h : parseP 3 [] (.matchLiteral "x")
      { tokens := [opTokX, opTokY], index := 0, results := [] } =
      .ok { tokens := [opTokX, opTokY], index := 1, results := [.str "x"] } := by
    decide
  exact c10_trailing_tokens_ignored h (by decide)

theorem literalsAdd_fst (v : String) (σ : SimpState) :
    literalsAdd v σ = (.literal v, (literalsAdd v σ).2) := by
  unfold literalsAdd
  split <;> rfl

/-- Counterexample for C5: the simplifier's `structure` case always installs
the bare second-argument projection `_2` as the reduce function; with a user
reducer present (here constantly `99`), the produced function still projects
the second argument (`2`), while the claimed composition with the reducer
would yield `99`. -/
theorem c5_structure_counterexample :
    structReduceApply
      (simplifyF 2 (.structure "(" (.terminal .value) ")" (some constReducer))
        initSimpState)
      [.num 1, .num 2, .num 3] = .num 2 ∧
    specStructureFn (some constReducer) [.num 1, .num 2, .num 3] = .num 99 ∧
    Value.num 2 ≠ Value.num 99 :=
  ⟨rfl, rfl, by decide⟩

/-- Claim C5 as amended: the simplifier rewrites every
`structure(open, content, close, reducer)` node into
`seq(open-literal, simplified content, close-literal,
reduce(arity = 3, fn = second-argument projection))`; the reduce function is
always the bare projection `_2` — a user-supplied reducer on the node is
ignored (the node's reducer `r` does not occur in the result). -/
theorem c5_structure_amended {f : Nat} {o c : String} {e : AST}
    {r : Option SeqFn} {σ σ1 : SimpState} {e' : SimpleAST}
    (h : simplifyF f e (literalsAdd o σ).2 = .ok (e', σ1)) :
    simplifyF (f + 1) (.structure o e c r) σ =
      .ok (.seq [.literal o, e', .literal c, .reduce 3 (some proj2)],
           (literalsAdd c σ1).2) := by
  simp only [simplifyF]
  rw [literalsAdd_fst o σ]
  simp only [h]
  rw [literalsAdd_fst c σ1]

/-- Witness for C5 (amended): a concrete `structure` node with a user
reducer simplifies to the `seq` with the bare projection, the reducer having
no effect on the result. -/
theorem c5_structure_amended_witness :
    simplifyF 2 (.structure "(" (.terminal .value) ")" (some constReducer))
        initSimpState =
      .ok (.seq [.literal "(", .value, .literal ")", .reduce 3 (some proj2)],
           { rules := [], scopeStack := [], keywords := [],
             operators := ["(", ")"], nextId := 2 }) :=
  c5_structure_amended (by rfl)

theorem simpBound_refl (σ : SimpState) : SimpBound σ σ :=
  ⟨le_refl _, fun _ h => .inl h⟩

theorem simpBound_trans {σ1 σ2 σ3 : SimpState}
    (h1 : SimpBound σ1 σ2) (h2 : SimpBound σ2 σ3) : SimpBound σ1 σ3 := by
  refine ⟨le_trans h1.1 h2.1, fun id hid => ?_⟩
  rcases h2.2 id hid with hmem | ⟨hlo, hhi⟩
  · rcases h1.2 id hmem with hmem' | ⟨hlo', hhi'⟩
    · exact .inl hmem'
    · exact .inr ⟨hlo', lt_of_lt_of_le hhi' h2.1⟩
  · exact .inr ⟨le_trans h1.1 hlo, hhi⟩

theorem assocSet_keys {α β : Type} [DecidableEq α] {k : α} {v : β} :
    ∀ {l : List (α × β)} {id : α},
      id ∈ (assocSet k v l).map Prod.fst ↔ id = k ∨ id ∈ l.map Prod.fst := by
  intro l
  induction l with
  | nil => intro id; simp [assocSet]
  | cons p rest ih =>
    obtain ⟨pk, pv⟩ := p
    intro id
    by_cases hk : k = pk
    · subst hk
      rw [show assocSet k v ((k, pv) :: rest) = (k, v) :: rest from by
        simp [assocSet]]
      simp only [List.map_cons, List.mem_cons]
      tauto
    · rw [show assocSet k v ((pk, pv) :: rest) = (pk, pv) :: assocSet k v rest from by
        simp [assocSet, hk]]
      simp only [List.map_cons, List.mem_cons]
      rw [ih]
      tauto

theorem literalsAdd_state (v : String) (σ : SimpState) :
    (literalsAdd v σ).2.rules = σ.rules ∧
    (literalsAdd v σ).2.nextId = σ.nextId := by
  unfold literalsAdd
  split <;> exact ⟨rfl, rfl⟩

theorem literalsAdd_bound (v : String) (σ : SimpState) :
    SimpBound σ (literalsAdd v σ).2 := by
  obtain ⟨h1, h2⟩ := literalsAdd_state v σ
  exact ⟨le_of_eq h2.symm, fun id hid => .inl (h1 ▸ hid)⟩

theorem allocRules_spec :
    ∀ (rdefs : List (String × AST)) (scope : List (String × Nat)) (next : Nat),
      (allocRules rdefs scope next).2.2 = next + rdefs.length ∧
      ∀ id ∈ (allocRules rdefs scope next).2.1.map Prod.fst,
        next ≤ id ∧ id < next + rdefs.length := by
  intro rdefs
  induction rdefs with
  | nil => intro scope next; simp [allocRules]
  | cons p rest ih =>
    intro scope next
    obtain ⟨ihlen, ihmem⟩ := ih (assocSet p.1 next scope) (next + 1)
    constructor
    · simp only [allocRules]
      rw [ihlen]
      simp [Nat.add_assoc, Nat.add_comm 1 rest.length]
    · intro id hid
      simp only [allocRules, List.map_cons, List.mem_cons] at hid
      rcases hid with rfl | hid
      · exact ⟨le_refl _, by simp⟩
      · obtain ⟨hlo, hhi⟩ := ihmem id hid
        refine ⟨le_trans (Nat.le_succ _) hlo, ?_⟩
        simp only [List.length_cons]
        omega

theorem rulesetGo_bound {recur : AST → SimpState → Except SErr (SimpleAST × SimpState)}
    (hrec : ∀ a σ x σ', recur a σ = .ok (x, σ') → SimpBound σ σ') :
    ∀ (rs : List (Nat × AST)) (σ σ' : SimpState),
      rulesetGo recur rs σ = .ok σ' →
      σ.nextId ≤ σ'.nextId ∧
      ∀ id ∈ σ'.rules.map Prod.fst,
        id ∈ σ.rules.map Prod.fst ∨ id ∈ rs.map Prod.fst ∨
          (σ.nextId ≤ id ∧ id < σ'.nextId) := by
  intro rs
  induction rs with
  | nil =>
    intro σ σ' h
    simp only [rulesetGo, Except.ok.injEq] at h
    subst h
    exact ⟨le_refl _, fun id hid => .inl hid⟩
  | cons p rest ih =>
    intro σ σ' h
    simp only [rulesetGo] at h
    cases hr : recur p.2 σ with
    | error err => rw [hr] at h; simp at h
    | ok res =>
      rw [hr] at h
      obtain ⟨e', σ1⟩ := res
      simp only [] at h
      have hb1 : SimpBound σ σ1 := hrec _ _ _ _ hr
      obtain ⟨hle, hmem⟩ := ih { σ1 with rules := assocSet p.1 e' σ1.rules } σ' h
      refine ⟨le_trans hb1.1 hle, fun id hid => ?_⟩
      rcases hmem id hid with hid1 | hid1 | ⟨hlo, hhi⟩
      · simp only [] at hid1
        rcases assocSet_keys.mp hid1 with rfl | hid2
        · exact .inr (.inl (by simp))
        · rcases hb1.2 id hid2 with hid3 | ⟨hlo, hhi⟩
          · exact .inl hid3
          · exact .inr (.inr ⟨hlo, lt_of_lt_of_le hhi hle⟩)
      · exact .inr (.inl (by simp [hid1]))
      · exact .inr (.inr ⟨le_trans hb1.1 hlo, hhi⟩)

theorem simplifyListGo_bound
    {recur : AST → SimpState → Except SErr (SimpleAST × SimpState)}
    (hrec : ∀ a σ x σ', recur a σ = .ok (x, σ') → SimpBound σ σ') :
    ∀ (l : List AST) (σ : SimpState) (xs : List SimpleAST) (σ' : SimpState),
      simplifyListGo recur l σ = .ok (xs, σ') → SimpBound σ σ' := by
  intro l
  induction l with
  | nil =>
    intro σ xs σ' h
    simp only [simplifyListGo, Except.ok.injEq] at h
    rw [← (Prod.mk.injEq _ _ _ _).mp h |>.2]
    exact simpBound_refl σ
  | cons e rest ih =>
    intro σ xs σ' h
    simp only [simplifyListGo] at h
    cases hr : recur e σ with
    | error err => rw [hr] at h; simp at h
    | ok res =>
      rw [hr] at h
      obtain ⟨e', σ1⟩ := res
      simp only [] at h
      cases hr2 : simplifyListGo recur rest σ1 with
      | error err => rw [hr2] at h; simp at h
      | ok res2 =>
        rw [hr2] at h
        obtain ⟨es', σ2⟩ := res2
        simp only [Except.ok.injEq, Prod.mk.injEq] at h
        rw [← h.2]
        exact simpBound_trans (hrec _ _ _ _ hr) (ih _ _ _ hr2)

theorem sepByGo_bound
    {recur : AST → SimpState → Except SErr (SimpleAST × SimpState)}
    (hrec : ∀ a σ x σ', recur a σ = .ok (x, σ') → SimpBound σ σ')
    {item sep : AST} {σ : SimpState} {x : SimpleAST} {σ' : SimpState}
    (h : sepByGo recur item sep σ = .ok (x, σ')) : SimpBound σ σ' := by
  simp only [sepByGo] at h
  cases hr : recur item { σ with nextId := σ.nextId + 1 } with
  | error err => rw [hr] at h; simp at h
  | ok res =>
    rw [hr] at h
    obtain ⟨i', σ1⟩ := res
    simp only [] at h
    cases hr2 : recur sep σ1 with
    | error err => rw [hr2] at h; simp at h
    | ok res2 =>
      rw [hr2] at h
      obtain ⟨s', σ2⟩ := res2
      simp only [Except.ok.injEq, Prod.mk.injEq] at h
      have hb1 : σ.nextId + 1 ≤ σ1.nextId := (hrec _ _ _ _ hr).1
      have hb2 : σ1.nextId ≤ σ2.nextId := (hrec _ _ _ _ hr2).1
      have hb0 : SimpBound σ { σ with nextId := σ.nextId + 1 } :=
        ⟨Nat.le_succ _, fun id hid => .inl hid⟩
      have hb12 : SimpBound σ σ2 :=
        simpBound_trans hb0 (simpBound_trans (hrec _ _ _ _ hr) (hrec _ _ _ _ hr2))
      rw [← h.2]
      constructor
      · show σ.nextId ≤ σ2.nextId
        exact hb12.1
      · intro id hid
        have hid' : id ∈ (assocSet σ.nextId
            (.seq [i', .alt [.seq [s', .alt [.nonterminal σ.nextId, pushArr],
              .reduce 2 (some proj2)], pushArr], .reduce 2 (some consFn)])
            σ2.rules).map Prod.fst := hid
        rcases assocSet_keys.mp hid' with rfl | hid2
        · refine .inr ⟨Nat.le_refl _, ?_⟩
          show σ.nextId < σ2.nextId
          omega
        · rcases hb12.2 id hid2 with h3 | ⟨h4, h5⟩
          · exact .inl h3
          · refine .inr ⟨h4, ?_⟩
            show id < σ2.nextId
            exact h5

theorem simplifyF_bound :
    ∀ (f : Nat) (a : AST) (σ : SimpState) (x : SimpleAST) (σ' : SimpState),
      simplifyF f a σ = .ok (x, σ') → SimpBound σ σ' := by
  intro f
  induction f with
  | zero => intro a σ x σ' h; simp [simplifyF] at h
  | succ g ih =>
    intro a σ x σ' h
    cases a with
    | error m => simp [simplifyF] at h
    | ruleset rdefs =>
      rcases rdefs with _ | ⟨p, rest⟩
      · simp [simplifyF] at h
      · simp only [simplifyF] at h
        obtain ⟨hlen, hmem⟩ := allocRules_spec (p :: rest) [] σ.nextId
        cases hrg : rulesetGo (simplifyF g)
            (allocRules (p :: rest) [] σ.nextId).2.1
            { σ with nextId := (allocRules (p :: rest) [] σ.nextId).2.2,
                     scopeStack := (allocRules (p :: rest) [] σ.nextId).1 :: σ.scopeStack } with
        | error err =>
          rw [hrg] at h
          simp at h
        | ok σ2 =>
          rw [hrg] at h
          simp only [] at h
          cases hget : assocGet p.1 (allocRules (p :: rest) [] σ.nextId).1 with
          | none => rw [hget] at h; simp at h
          | some fid =>
            rw [hget] at h
            simp only [Except.ok.injEq, Prod.mk.injEq] at h
            obtain ⟨hle2, hmem2⟩ := rulesetGo_bound ih _ _ _ hrg
            have hle2' : (allocRules (p :: rest) [] σ.nextId).2.2 ≤ σ2.nextId := hle2
            have hstart : σ.nextId ≤ (allocRules (p :: rest) [] σ.nextId).2.2 := by
              rw [hlen]; omega
            rw [← h.2]
            constructor
            · show σ.nextId ≤ σ2.nextId
              omega
            · intro id hid
              have hid' : id ∈ σ2.rules.map Prod.fst := hid
              rcases hmem2 id hid' with hid1 | hid1 | ⟨hlo, hhi⟩
              · exact .inl hid1
              · obtain ⟨hlo, hhi⟩ := hmem id hid1
                refine .inr ⟨hlo, ?_⟩
                show id < σ2.nextId
                omega
              · have hlo' : (allocRules (p :: rest) [] σ.nextId).2.2 ≤ id := hlo
                refine .inr ⟨by omega, ?_⟩
                show id < σ2.nextId
                exact hhi
    | literal v =>
      simp only [simplifyF, Except.ok.injEq] at h
      have h2 : (literalsAdd v σ).2 = σ' := by rw [h]
      rw [← h2]
      exact literalsAdd_bound v σ
    | terminal k =>
      cases k <;>
        (simp only [simplifyF, Except.ok.injEq, Prod.mk.injEq] at h;
         rw [← h.2];
         exact simpBound_refl σ)
    | identifier name =>
      simp only [simplifyF] at h
      cases hl : scopeLookup name σ.scopeStack with
      | error err => rw [hl] at h; simp at h
      | ok id =>
        rw [hl] at h
        simp only [Except.ok.injEq, Prod.mk.injEq] at h
        rw [← h.2]
        exact simpBound_refl σ
    | «structure» o e c r =>
      simp only [simplifyF] at h
      cases hs : simplifyF g e (literalsAdd o σ).2 with
      | error err => rw [hs] at h; simp at h
      | ok res =>
        rw [hs] at h
        obtain ⟨e', σ2⟩ := res
        simp only [Except.ok.injEq, Prod.mk.injEq] at h
        rw [← h.2]
        exact simpBound_trans (literalsAdd_bound o σ)
          (simpBound_trans (ih _ _ _ _ hs) (literalsAdd_bound c σ2))
    | seq exprs fn =>
      simp only [simplifyF] at h
      cases hs : simplifyListGo (simplifyF g) exprs σ with
      | error err => rw [hs] at h; simp at h
      | ok res =>
        rw [hs] at h
        obtain ⟨es', σ2⟩ := res
        simp only [Except.ok.injEq, Prod.mk.injEq] at h
        rw [← h.2]
        exact simplifyListGo_bound ih _ _ _ _ hs
    | alt exprs =>
      simp only [simplifyF] at h
      cases hs : simplifyListGo (simplifyF g) exprs σ with
      | error err => rw [hs] at h; simp at h
      | ok res =>
        rw [hs] at h
        obtain ⟨es', σ2⟩ := res
        simp only [Except.ok.injEq, Prod.mk.injEq] at h
        rw [← h.2]
        exact simplifyListGo_bound ih _ _ _ _ hs
    | repeat0 e =>
      simp only [simplifyF] at h
      cases hs : simplifyF g e σ with
      | error err => rw [hs] at h; simp at h
      | ok res =>
        rw [hs] at h
        obtain ⟨e', σ2⟩ := res
        simp only [Except.ok.injEq, Prod.mk.injEq] at h
        rw [← h.2]
        exact ih _ _ _ _ hs
    | repeat1 e =>
      simp only [simplifyF] at h
      cases hs : simplifyF g e σ with
      | error err => rw [hs] at h; simp at h
      | ok res =>
        rw [hs] at h
        obtain ⟨e', σ2⟩ := res
        simp only [Except.ok.injEq, Prod.mk.injEq] at h
        rw [← h.2]
        exact ih _ _ _ _ hs
    | maybe e =>
      simp only [simplifyF] at h
      cases hs : simplifyF g e σ with
      | error err => rw [hs] at h; simp at h
      | ok res =>
        rw [hs] at h
        obtain ⟨e', σ2⟩ := res
        simp only [Except.ok.injEq, Prod.mk.injEq] at h
        rw [← h.2]
        exact ih _ _ _ _ hs
    | sepBy0 item sep =>
      simp only [simplifyF] at h
      cases hs : sepByGo (simplifyF g) item sep σ with
      | error err => rw [hs] at h; simp at h
      | ok res =>
        rw [hs] at h
        obtain ⟨rn, σ2⟩ := res
        simp only [Except.ok.injEq, Prod.mk.injEq] at h
        rw [← h.2]
        exact sepByGo_bound ih hs
    | sepBy1 item sep =>
      simp only [simplifyF] at h
      cases hs : sepByGo (simplifyF g) item sep σ with
      | error err => rw [hs] at h; simp at h
      | ok res =>
        rw [hs] at h
        obtain ⟨rn, σ2⟩ := res
        simp only [Except.ok.injEq, Prod.mk.injEq] at h
        rw [← h.2]
        exact sepByGo_bound ih hs

/-- Claim C6: `sepBy0(item, sep)` and `sepBy1(item, sep)` both simplify via a
single auxiliary rule `R = item (sep R?)?` — concretely `seq(item',
alt(seq(sep', alt(R, pushArr), reduce(2, _2)), pushArr), reduce(2, cons))`
(`sepRuleOf`) — installed under a symbol `R` that is fresh: it is the current
counter value, and (third conjunct) under the invariant that every existing
rule key is below the counter, `R` keys no rule of the state reached after
simplifying item and separator. `sepBy1` returns the bare reference
`nonterminal R`; `sepBy0` additionally wraps it in an alternative whose other
branch matches nothing and produces the empty list (`pushArr`). The witness
exercises the rule's semantics: the match pushes the list of item values in
input order, built right-to-left by cons. -/
theorem c6_sepBy_auxiliary_rule {f : Nat} {item sep : AST}
    {σ σ1 σ2 : SimpState} {i' s' : SimpleAST}
    (h1 : simplifyF f item { σ with nextId := σ.nextId + 1 } = .ok (i', σ1))
    (h2 : simplifyF f sep σ1 = .ok (s', σ2))
    (hkeys : ∀ id ∈ σ.rules.map Prod.fst, id < σ.nextId) :
    simplifyF (f + 1) (.sepBy1 item sep) σ =
      .ok (.nonterminal σ.nextId,
        { σ2 with rules := assocSet σ.nextId (sepRuleOf i' s' σ.nextId) σ2.rules }) ∧
    simplifyF (f + 1) (.sepBy0 item sep) σ =
      .ok (.alt [.nonterminal σ.nextId, pushArr],
        { σ2 with rules := assocSet σ.nextId (sepRuleOf i' s' σ.nextId) σ2.rules }) ∧
    σ.nextId ∉ σ2.rules.map Prod.fst := by
  have hgo : sepByGo (simplifyF f) item sep σ =
      .ok (.nonterminal σ.nextId,
        { σ2 with rules := assocSet σ.nextId (sepRuleOf i' s' σ.nextId) σ2.rules }) := by
    simp only [sepByGo, h1, h2, sepRuleOf]
  refine ⟨?_, ?_, ?_⟩
  · simp only [simplifyF, hgo]
  · simp only [simplifyF, hgo]
  · intro hmem
    have hb1 := simplifyF_bound f item _ _ _ h1
    have hb2 := simplifyF_bound f sep _ _ _ h2
    have hb1lo : σ.nextId + 1 ≤ σ1.nextId := hb1.1
    rcases hb2.2 _ hmem with hmem1 | ⟨hlo2, _⟩
    · rcases hb1.2 _ hmem1 with hmem0 | ⟨hlo1, _⟩
      · have : σ.nextId ∈ σ.rules.map Prod.fst := hmem0
        exact absurd (hkeys _ this) (lt_irrefl _)
      · have : σ.nextId + 1 ≤ σ.nextId := hlo1
        omega
    · omega

/-- Witness for C6: `sepBy1(%value, ",")` simplifies to a reference to the
fresh rule `2`, whose body is the auxiliary rule shape; compiling that rule
table and running it on the token stream `1 , 2` yields the list `[1, 2]` of
the item values in input order. -/
theorem c6_sepBy_auxiliary_rule_witness :
    simplifyF 2 (.sepBy1 (.terminal .value) (.literal ",")) initSimpState =
      .ok (.nonterminal 2,
        { rules := [(2, sepRuleOf .value (.literal ",") 2)],
          scopeStack := [], keywords := [], operators := [","], nextId := 3 }) ∧
    (match compileRulesetF 12 [(2, sepRuleOf .value (.literal ",") 2)] with
     | .ok pm => runParser 20 pm (.matchRule 2)
         [{ type := .value, value := .num 1, index := 0, outerIndex := 0, length := 1 },
          opTokComma,
          { type := .value, value := .num 2, index := 0, outerIndex := 0, length := 1 }]
     | .error _ => .error .fuel) = .ok (.list [.num 1, .num 2]) := by
  have h1 : simplifyF 1 (.terminal .value)
      { initSimpState with nextId := initSimpState.nextId + 1 } =
      .ok (.value, { initSimpState with nextId := initSimpState.nextId + 1 }) := rfl
  have h2 : simplifyF 1 (.literal ",")
      { initSimpState with nextId := initSimpState.nextId + 1 } =
      .ok (.literal ",",
        { rules := [], scopeStack := [], keywords := [], operators := [","],
          nextId := 3 }) := rfl
  have h3 : ∀ id ∈ initSimpState.rules.map Prod.fst, id < initSimpState.nextId := by
    intro id hid
    simp [initSimpState] at hid
  constructor
  · exact (c6_sepBy_auxiliary_rule h1 h2 h3).1
  · decide

/-- Counterexample for C8: tokenizing the template `"a${42}b"` (fragments
`"a` and `b"` around the interpolated value `42`) yields one string token
whose body has the stringified value spliced in (`a42b`) and no separate
token — but whose length is 4 (open quote, `a`, `b`, close quote): the
spliced value contributed 0 to the length, not its stringified length 2 as
the claim requires (which would give 4 + 2 = 6). -/
theorem c8_string_splice_counterexample :
    tokenizeF 50 [['"', 'a'], ['b', '"']] [.num 42] =
      .ok [{ type := .value, value := .str "a42b", index := 0, outerIndex := 0,
             length := 4 }] ∧
    (4 : Nat) ≠ 4 + (valueToString (.num 42)).length := by
  refine ⟨by decide, by decide⟩

/-- Claim C8 as amended: when the quote scanner reaches the end of a text
fragment while inside an open quoted string and an interpolated value is
available, the value is stringified and spliced into the string token's
accumulated body, no separate token is produced (the slot token is dropped
and the emitted token list is untouched), and the enclosing string token's
length is unchanged — the spliced value contributes 0 to it; only literal
sub-parts and the quotes are counted. -/
theorem c8_string_splice_amended {f : Nat} {q : Char} {tok : Token}
    {st st' : LexerState} {it : Token}
    (hmore : st.hasStrings = true) (hend : st.nextChar = none)
    (hint : st.getInterpolation = (some it, st')) :
    quoteGo (f + 1) q tok st =
      quoteGo f q { tok with value := tok.value.strApp (valueToString it.value) } st' ∧
    st'.tokens = st.tokens := by
  constructor
  · simp only [quoteGo, hmore, hend, hint, if_true]
  · have h2 : (st.getInterpolation).2 = st' := by rw [hint]
    rw [← h2]
    rfl

/-- Witness for C8 (amended): the scanner state inside the open string
`"a` of `"a${42}b"`, at the end of the first fragment: the splice step
appends `42` to the body `a`, changes no other token field, and pushes
nothing. -/
theorem c8_string_splice_amended_witness :
    quoteGo 10 '"'
      { type := .value, value := .str "a", index := 0, outerIndex := 0, length := 2 }
      { strings := [['"', 'a'], ['b', '"']], interps := [.num 42], index := 2,
        outerIndex := 0, tokens := [] } =
    quoteGo 9 '"'
      { type := .value, value := .str "a42", index := 0, outerIndex := 0, length := 2 }
      { strings := [['"', 'a'], ['b', '"']], interps := [.num 42], index := 0,
        outerIndex := 1, tokens := [] } := by
  have hmore : LexerState.hasStrings
      { strings := [['"', 'a'], ['b', '"']], interps := [.num 42], index := 2,
        outerIndex := 0, tokens := [] } = true := by decide
  have hend : LexerState.nextChar
      { strings := [['"', 'a'], ['b', '"']], interps := [.num 42], index := 2,
        outerIndex := 0, tokens := [] } = none := by decide
  have hint : LexerState.getInterpolation
      { strings := [['"', 'a'], ['b', '"']], interps := [.num 42], index := 2,
        outerIndex := 0, tokens := [] } =
      (some { type := .value, value := .num 42, index := 0, outerIndex := 1,
              length := 0 },
       { strings := [['"', 'a'], ['b', '"']], interps := [.num 42], index := 0,
         outerIndex := 1, tokens := [] }) := by decide
  exact (c8_string_splice_amended hmore hend hint).1

/-- Counterexample for C9: tokenizing `a${42}b` produces the slot token with
offset 0 and length 0 — but its segment index (1) is the same as that of the
token produced from the following fragment `b`, not distinct from the
segment indices of all surrounding-fragment tokens. -/
theorem c9_slot_segment_counterexample :
    tokenizeF 50 [['a'], ['b']] [.num 42] =
      .ok [{ type := .identifier, value := .str "a", index := 0, outerIndex := 0,
             length := 1 },
           { type := .value, value := .num 42, index := 0, outerIndex := 1,
             length := 0 },
           { type := .identifier, value := .str "b", index := 0, outerIndex := 1,
             length := 1 }] ∧
    ({ type := .value, value := .num 42, index := 0, outerIndex := 1,
       length := 0 } : Token).outerIndex =
      ({ type := .identifier, value := .str "b", index := 0, outerIndex := 1,
         length := 1 } : Token).outerIndex := by
  refine ⟨by decide, rfl⟩

/-- Claim C9 as amended: at an interpolation slot outside a quoted string and
outside a comment, with a value available at that position, the tokenizer
emits a value token whose payload is the interpolated value unchanged, whose
offset within its segment is 0 and whose length is 0; its segment index is
one greater than the index of the fragment just scanned — distinct from the
tokens of the preceding fragment, but equal to the segment index of tokens
produced from the following fragment (which also resumes at index one more
than the preceding fragment's). -/
theorem c9_slot_token_amended {f : Nat} {st st' : LexerState} {it : Token}
    (hmore : st.hasStrings = true) (hend : st.nextChar = none)
    (hint : st.getInterpolation = (some it, st')) :
    it.type = .value ∧
    it.value = st.interps.getD st.outerIndex .undefined ∧
    it.index = 0 ∧ it.length = 0 ∧
    it.outerIndex = st.outerIndex + 1 ∧
    st'.outerIndex = st.outerIndex + 1 ∧
    mainStateGo (f + 1) st = mainStateGo f (st'.push it) := by
  have hmain : mainStateGo (f + 1) st = mainStateGo f (st'.pushOpt (some it)) := by
    simp only [mainStateGo, hmore, hend, hint, if_true]
  have hst' : (st.getInterpolation).2 = st' := by rw [hint]
  have hout : st'.outerIndex = st.outerIndex + 1 := by
    rw [← hst']
    rfl
  simp only [LexerState.getInterpolation, Prod.mk.injEq] at hint
  obtain ⟨htok, _⟩ := hint
  by_cases hlt : st.outerIndex < st.interps.length
  · rw [if_pos hlt] at htok
    have hit := Option.some.inj htok
    refine ⟨?_, ?_, ?_, ?_, ?_, hout, hmain⟩ <;> rw [← hit]
  · rw [if_neg hlt] at htok
    cases htok

/-- Witness for C9 (amended): the state after scanning the fragment `a` of
`a${42}b`; the emitted slot token carries the value `42` unchanged at offset
0, length 0, segment index 1. -/
theorem c9_slot_token_amended_witness :
    ({ type := .value, value := .num 42, index := 0, outerIndex := 1,
       length := 0 } : Token).value = Value.num 42 ∧
    mainStateGo 10
      { strings := [['a'], ['b']], interps := [.num 42], index := 1,
        outerIndex := 0,
        tokens := [{ type := .identifier, value := .str "a", index := 0,
                     outerIndex := 0, length := 1 }] } =
    mainStateGo 9
      { strings := [['a'], ['b']], interps := [.num 42], index := 0,
        outerIndex := 1,
        tokens := [{ type := .identifier, value := .str "a", index := 0,
                     outerIndex := 0, length := 1 },
                   { type := .value, value := .num 42, index := 0,
                     outerIndex := 1, length := 0 }] } := by
  have hmore : LexerState.hasStrings
      { strings := [['a'], ['b']], interps := [.num 42], index := 1,
        outerIndex := 0,
        tokens := [{ type := .identifier, value := .str "a", index := 0,
                     outerIndex := 0, length := 1 }] } = true := by decide
  have hend : LexerState.nextChar
      { strings := [['a'], ['b']], interps := [.num 42], index := 1,
        outerIndex := 0,
        tokens := [{ type := .identifier, value := .str "a", index := 0,
                     outerIndex := 0, length := 1 }] } = none := by decide
  have hint : LexerState.getInterpolation
      { strings := [['a'], ['b']], interps := [.num 42], index := 1,
        outerIndex := 0,
        tokens := [{ type := .identifier, value := .str "a", index := 0,
                     outerIndex := 0, length := 1 }] } =
      (some { type := .value, value := .num 42, index := 0, outerIndex := 1,
              length := 0 },
       { strings := [['a'], ['b']], interps := [.num 42], index := 0,
         outerIndex := 1,
         tokens := [{ type := .identifier, value := .str "a", index := 0,
                      outerIndex := 0, length := 1 }] }) := by decide
  exact ⟨rfl, (@c9_slot_token_amended 9 _ _ _ hmore hend hint).2.2.2.2.2.2⟩

end LLL
